import Mathlib

/-!
# Dashboard: the filter-and-aggregate pipeline of `Frontend/src/App.jsx`

A shallow embedding of the pure part of the React component `App`:

* the normalisation expression `x && x !== "N/A" ? x : "Unknown"` (lines 63, 72, 96),
* the predicate filter `data.filter(...)` (lines 60-66),
* the aggregator `groupBy` (lines 69-76),
* the option extractor `filterOptions` (lines 93-99),
* the filter mutators `handleFilterChange` and `clearFilters` (lines 101-117),
* the debounced effect (lines 54-85) as a step function on an explicit state.

JavaScript is dynamically typed, so field values are modelled by `JSVal`: the values a
parsed JSON record can hold, together with the values the expressions of the pipeline can
produce from them.  A finite number is held as the integer `scaled` with value
`scaled * 2^(-1074)`: every finite IEEE-754 double is such a multiple, so sums of doubles
are exact integer sums followed by one rounding to 53 significant bits (ties to even), and
overflow gives `Infinity`.  The two zeros are one value (the pipeline never tells them
apart: they print alike, are both falsy and are the same set member).  Strings are
sequences of Unicode scalar values.  Ordinary objects are association lists of own
properties in creation order; reads fall back to `Object.prototype`, as they do for every
object literal and every parsed JSON object.
-/

namespace Dashboard

set_option exponentiation.threshold 5000
set_option maxRecDepth 4000

/-! ## JavaScript numbers -/

/-- The scale of the numbers: a finite number is an integer multiple of `2^(-1074)`, the
smallest positive double, and `unit` is the integer that stands for 1. -/
def unit : Nat := 2 ^ 1074

/-- The quotient `a / b` rounded to the nearest integer, ties to the even one. -/
def halfEven (a b : Nat) : Nat :=
  if 2 * (a % b) < b then a / b
  else if b < 2 * (a % b) then a / b + 1
  else if (a / b) % 2 = 0 then a / b
  else a / b + 1

/-- One step of the binary search for the leading bit. -/
def bitStep (a acc w : Nat) : Nat := if 2 ^ (acc + w) ≤ a then acc + w else acc

/-- The position of the leading bit of `a` (0 for `a = 0`), for `a` below `2^4096`. -/
def leadingBit (a : Nat) : Nat :=
  [2048, 1024, 512, 256, 128, 64, 32, 16, 8, 4, 2, 1].foldl (bitStep a) 0

/-- Rounding to double precision: the multiple of `2^(-1074)` nearest to the non-negative
rational `a / b` (counted in that unit) among those with at most 53 significant bits, ties
to the even mantissa. -/
def roundScaled (a b : Nat) : Nat :=
  halfEven a (b * 2 ^ (leadingBit (a / b) - 52)) * 2 ^ (leadingBit (a / b) - 52)

/-! ## JavaScript values -/

/-- The JavaScript values of the pipeline.  `num scaled` is the finite number
`scaled * 2^(-1074)`; the numbers of JavaScript are those whose `scaled` has at most 53
significant bits and lies below `2^2098` in magnitude, and the operations below return
only such numbers.  `inf negative` is `Infinity` or `-Infinity`.  `inherited name` is the
object found under `name` on `Object.prototype` (a built-in function, or the prototype
object itself for `__proto__`); each of them is a single object, so structural equality on
the name is reference equality. -/
inductive JSVal where
  | undefined
  | null
  | bool (b : Bool)
  | nan
  | inf (negative : Bool)
  | num (scaled : Int)
  | str (s : String)
  | inherited (name : String)
  deriving DecidableEq

/-- The number value of the integer `n`. -/
def JSVal.ofInt (n : Int) : JSVal := .num (n * unit)

/-- The number value of a rational given by sign and magnitude `a / b` (in units of
`2^(-1074)`): the nearest double, or an infinity from `2^1024` on. -/
def numberOf (negative : Bool) (a b : Nat) : JSVal :=
  if roundScaled a b < 2 ^ 2098 then
    .num (if negative then -(roundScaled a b : Int) else (roundScaled a b : Int))
  else .inf negative

/-- The sum of two finite numbers: the exact sum, rounded once. -/
def addNum (x y : Int) : JSVal := numberOf (decide (x + y < 0)) (x + y).natAbs 1

/-! ## Number to string -/

/-- The test `a / 2^1074 < 10^n`. -/
def ltPow10 (a : Nat) (n : Int) : Bool :=
  if 0 ≤ n then decide (a < 10 ^ n.toNat * unit) else decide (a * 10 ^ (-n).toNat < unit)

/-- The decimal exponent `n` of a positive number: the least `n` with value below `10^n`. -/
def decimalExponent (a : Nat) : Int :=
  match (List.range 640).find? (fun i => ltPow10 a ((i : Int) - 325)) with
  | some i => (i : Int) - 325
  | none => 315

/-- Numerator of the decimal `s * 10^p`, in units of `2^(-1074)`. -/
def decimalNum (s : Nat) (p : Int) : Nat :=
  if 0 ≤ p then s * 10 ^ p.toNat * unit else s * unit

/-- Denominator of the decimal `s * 10^p`. -/
def decimalDen (p : Int) : Nat := if 0 ≤ p then 1 else 10 ^ (-p).toNat

/-- The decimal `s * 10^p` reads back as the number `a`. -/
def readsBack (a s : Nat) (p : Int) : Bool :=
  decide (roundScaled (decimalNum s p) (decimalDen p) = a)

/-- The integer part of `a / 10^p`. -/
def digitsBelow (a : Nat) (p : Int) : Nat :=
  if 0 ≤ p then a / (10 ^ p.toNat * unit) else a * 10 ^ (-p).toNat / unit

/-- The decimal of `k` digits that reads back as `a`, if there is one: of the two
neighbours of `a` the one that reads back, the closer one when both do (the even one on a
tie).  The result is a digit string `s` and a decimal exponent `n`, for `0.s * 10^n`. -/
def candidate (a : Nat) (n : Int) (k : Nat) : Option (Nat × Int) :=
  let p := n - k
  let lo := digitsBelow a p
  let hi := lo + 1
  let okLo := decide (10 ^ (k - 1) ≤ lo) && readsBack a lo p
  let okHi := readsBack a hi p
  let loCloser : Bool :=
    decide (2 * a * decimalDen p < decimalNum (lo + hi) p) ||
      (decide (2 * a * decimalDen p = decimalNum (lo + hi) p) && decide (lo % 2 = 0))
  let pickHi : Option (Nat × Int) :=
    if hi = 10 ^ k then some (10 ^ (k - 1), n + 1) else some (hi, n)
  if okLo && okHi then (if loCloser then some (lo, n) else pickHi)
  else if okLo then some (lo, n)
  else if okHi then pickHi
  else none

/-- The shortest decimal that reads back as the positive number `a` (Number::toString,
step 5: `k` as small as possible), at most 17 digits. -/
def shortest (a : Nat) : Nat × Int :=
  match (List.range 17).findSome? (fun i => candidate a (decimalExponent a) (i + 1)) with
  | some r => r
  | none => (digitsBelow a (decimalExponent a - 17), decimalExponent a)

/-- The digits without trailing zeros. -/
def stripZeros (fuel : Nat) (s : Nat) : Nat :=
  match fuel with
  | 0 => s
  | fuel + 1 => if s ≠ 0 ∧ s % 10 = 0 then stripZeros fuel (s / 10) else s

/-- A run of zeros. -/
def zeros (n : Nat) : String := String.mk (List.replicate n '0')

/-- Number::toString, steps 6 to 10: plain digits up to `10^21`, a leading `0.` down to
`10^(-6)`, exponent form otherwise. -/
def formatDecimal (s : Nat) (n : Int) : String :=
  let digits := (Nat.repr (stripZeros 20 s)).data
  let k := digits.length
  if (k : Int) ≤ n ∧ n ≤ 21 then String.mk digits ++ zeros (n.toNat - k)
  else if 0 < n ∧ n ≤ 21 then
    String.mk (digits.take n.toNat) ++ "." ++ String.mk (digits.drop n.toNat)
  else if -6 < n ∧ n ≤ 0 then "0." ++ zeros (-n).toNat ++ String.mk digits
  else
    let e := n - 1
    let sign := if e < 0 then "-" else "+"
    let mant := if k = 1 then String.mk digits
      else String.mk (digits.take 1) ++ "." ++ String.mk (digits.drop 1)
    mant ++ "e" ++ sign ++ Nat.repr e.natAbs

/-- Number::toString of a finite number. -/
def numberToString (x : Int) : String :=
  if x = 0 then "0"
  else (if x < 0 then "-" else "") ++
    formatDecimal (shortest x.natAbs).1 (shortest x.natAbs).2

/-- An ordinary object: its own enumerable string-keyed properties, in creation order. -/
abbrev Obj (α : Type) := List (String × α)

/-- A record of the data set: one parsed JSON object. -/
abbrev Record := Obj JSVal

/-- The own property names of `Object.prototype` (ECMAScript, Annex B included). -/
def objectPrototypeKeys : List String :=
  ["constructor", "__defineGetter__", "__defineSetter__", "hasOwnProperty",
   "__lookupGetter__", "__lookupSetter__", "isPrototypeOf", "propertyIsEnumerable",
   "toString", "valueOf", "__proto__", "toLocaleString"]

/-- The string a built-in of `Object.prototype` converts to.  The text of a native
function is host-defined; this is the text V8 prints.  No theorem below depends on it. -/
def inheritedText (name : String) : String :=
  if name = "__proto__" then "[object Object]"
  else if name = "constructor" then "function Object() \x7b [native code] \x7d"
  else "function " ++ name ++ "() \x7b [native code] \x7d"

/-- ToBoolean. -/
def truthy : JSVal → Bool
  | .undefined => false
  | .null => false
  | .bool b => b
  | .nan => false
  | .inf _ => true
  | .num n => n != 0
  | .str s => s != ""
  | .inherited _ => true

/-- ToString. -/
def toStr : JSVal → String
  | .undefined => "undefined"
  | .null => "null"
  | .bool true => "true"
  | .bool false => "false"
  | .nan => "NaN"
  | .inf false => "Infinity"
  | .inf true => "-Infinity"
  | .num n => numberToString n
  | .str s => s
  | .inherited name => inheritedText name

/-- ToPrimitive: the built-in objects convert to their text, primitives are unchanged. -/
def toPrimitive : JSVal → JSVal
  | .inherited name => .str (inheritedText name)
  | v => v

/-- ToNumber on the primitives that are not strings (`undefined` gives `NaN`). -/
def toNumber : JSVal → JSVal
  | .null => .num 0
  | .bool true => .ofInt 1
  | .bool false => .num 0
  | .num n => .num n
  | .inf negative => .inf negative
  | _ => .nan

/-- Number::add: `NaN` is absorbing, opposite infinities give `NaN`, an infinity absorbs a
finite number, finite numbers add exactly and round once. -/
def addNumbers : JSVal → JSVal → JSVal
  | .num x, .num y => addNum x y
  | .inf a, .inf b => if a = b then .inf a else .nan
  | .inf a, .num _ => .inf a
  | .num _, .inf b => .inf b
  | _, _ => .nan

/-- The binary `+` operator: string concatenation as soon as one operand is a string
after ToPrimitive, numeric addition otherwise. -/
def jsAdd (a b : JSVal) : JSVal :=
  match toPrimitive a, toPrimitive b with
  | .str s, pb => .str (s ++ toStr pb)
  | pa, .str t => .str (toStr pa ++ t)
  | pa, pb => addNumbers (toNumber pa) (toNumber pb)

/-- The expression `x || 0`. -/
def orZero (x : JSVal) : JSVal :=
  if truthy x then x else .num 0

/-- Property read `o[k]`: the own property if there is one, else what `Object.prototype`
holds under `k`, else `undefined`. -/
def get (o : Record) (k : String) : JSVal :=
  match o.lookup k with
  | some v => v
  | none => if k ∈ objectPrototypeKeys then .inherited k else .undefined

/-- CreateDataProperty, as performed by an object literal with a computed key and by
object spread: an existing own property keeps its place and takes the new value, a new
one is appended. -/
def define {α : Type} (o : Obj α) (k : String) (v : α) : Obj α :=
  if o.any (fun p => p.1 == k) then o.map (fun p => if p.1 == k then (k, v) else p)
  else o ++ [(k, v)]

/-- The assignment `o[k] = v` on an object whose prototype is `Object.prototype`, as far
as own properties go.  An existing own property is overwritten; the name `__proto__`
reaches the inherited setter, which creates no own property (it ignores a primitive and
re-parents the object otherwise); every other name creates an own property. -/
def assign {α : Type} (o : Obj α) (k : String) (v : α) : Obj α :=
  if o.any (fun p => p.1 == k) then o.map (fun p => if p.1 == k then (k, v) else p)
  else if k = "__proto__" then o
  else o ++ [(k, v)]

/-- The value of `s` as an array index: `s` is the canonical decimal numeral of a
natural number below 2^32 - 1. -/
def arrayIndex? (s : String) : Option Nat :=
  let n := s.data.foldl (fun n c => 10 * n + (c.toNat - 48)) 0
  if s.data.all Char.isDigit ∧ toString n = s ∧ n < 4294967295 then some n else none

/-- Numeric rank of a key that is an array index. -/
def indexRank {α : Type} (p : String × α) : Nat :=
  (arrayIndex? p.1).getD 0

/-- The order of `Object.entries`, `Object.keys`, `for ... in` and spread
(OrdinaryOwnPropertyKeys): array-index keys first, in ascending numeric order, then the
other string keys in creation order. -/
def ownEntries {α : Type} (o : Obj α) : Obj α :=
  (o.filter (fun p => (arrayIndex? p.1).isSome)).insertionSort
      (fun p q => indexRank p ≤ indexRank q)
    ++ o.filter (fun p => (arrayIndex? p.1).isNone)

/-! ## Normaliser (three inlined copies) -/

/-- Line 63: `fieldValue && fieldValue !== "N/A" ? fieldValue : "Unknown"`. -/
def normalized (fieldValue : JSVal) : JSVal :=
  let test := if truthy fieldValue then JSVal.bool (fieldValue != JSVal.str "N/A") else fieldValue
  if truthy test then fieldValue else JSVal.str "Unknown"

/-- Line 72: `curr[keyField] && curr[keyField] !== "N/A" ? curr[keyField] : "Unknown"`. -/
def groupKey (curr : Record) (keyField : String) : JSVal :=
  let test :=
    if truthy (get curr keyField) then JSVal.bool (get curr keyField != JSVal.str "N/A")
    else get curr keyField
  if truthy test then get curr keyField else JSVal.str "Unknown"

/-- Line 96: `d[field] && d[field] !== "N/A" ? d[field] : "Unknown"`. -/
def optionValue (d : Record) (field : String) : JSVal :=
  let test :=
    if truthy (get d field) then JSVal.bool (get d field != JSVal.str "N/A")
    else get d field
  if truthy test then get d field else JSVal.str "Unknown"

/-! ## Filter constraints -/

/-- The `filters` state object: field name to selected value (a string). -/
abbrev Filters := Obj String

/-- Lines 24-34 and 107-117: the all-empty constraint object. -/
def emptyFilters : Filters :=
  [("end_year", ""), ("topic", ""), ("sector", ""), ("region", ""), ("pest", ""),
   ("source", ""), ("swot", ""), ("country", ""), ("city", "")]

/-- The nine filterable field names. -/
def filterFields : List String := emptyFilters.map Prod.fst

/-- Line 103: `(prev) => ({ ...prev, [name]: value })`. -/
def handleFilterChange (prev : Filters) (name value : String) : Filters :=
  define (ownEntries prev) name value

/-- Lines 106-117: `clearFilters` replaces the state by the all-empty object. -/
def clearFilters (_prev : Filters) : Filters := emptyFilters

/-- Lines 201-213: the user picks the option rendered for `val`.  The `value` attribute
of an `option` element and `e.target.value` are strings, the string conversion of `val`;
the change handler receives the field name and that string. -/
def selectOption (filters : Filters) (name : String) (val : JSVal) : Filters :=
  handleFilterChange filters name (toStr val)

/-! ## Predicate filter -/

/-- Lines 60-66: `data.filter(item => Object.entries(filters).every(...))`. -/
def filtered (data : List Record) (filters : Filters) : List Record :=
  data.filter fun item =>
    (ownEntries filters).all fun (key, value) =>
      let fieldValue := get item key
      value == "" || normalized fieldValue == JSVal.str value

/-! ## Aggregator -/

/-- Lines 71-75: the reducer of `groupBy`.  The key is converted to a property name by
ToString; the assigned value is `(acc[key] || 0) + (curr[valueField] || 0)`. -/
def groupStep (keyField valueField : String) (acc : Record) (curr : Record) : Record :=
  let key := toStr (groupKey curr keyField)
  assign acc key (jsAdd (orZero (get acc key)) (orZero (get curr valueField)))

/-- Line 76: the object literal built from one entry of the accumulator. -/
def entryObject (keyField valueField : String) (p : String × JSVal) : Record :=
  define (define [] keyField (JSVal.str p.1)) valueField p.2

/-- Lines 69-76: `groupBy(arr, keyField, valueField)`. -/
def groupBy (arr : List Record) (keyField valueField : String) : List Record :=
  (ownEntries (arr.foldl (groupStep keyField valueField) [])).map
    (entryObject keyField valueField)

/-! ## Option extractor -/

/-- The spread of `new Set(values)`: the values in order of first occurrence, compared by
SameValueZero (which is structural equality on `JSVal`). -/
def newSet (values : List JSVal) : List JSVal :=
  values.foldl (fun seen v => if v ∈ seen then seen else seen ++ [v]) []

/-- The UTF-16 code units of a string. -/
def utf16 (s : String) : List Nat :=
  (s.data.map fun c =>
    if c.toNat < 65536 then [c.toNat]
    else [55296 + (c.toNat - 65536) / 1024, 56320 + (c.toNat - 65536) % 1024]).flatten

/-- Lexicographic comparison of code-unit sequences: `a` is not after `b`. -/
def codeUnitsLe : List Nat → List Nat → Bool
  | [], _ => true
  | _ :: _, [] => false
  | a :: as, b :: bs => a < b || (a == b && codeUnitsLe as bs)

/-- The order used by `Array.prototype.sort` without a comparator: `undefined` last, the
other values by the code units of their string conversion. -/
def sortLe (a b : JSVal) : Bool :=
  match a, b with
  | _, .undefined => true
  | .undefined, _ => false
  | a, b => codeUnitsLe (utf16 (toStr a)) (utf16 (toStr b))

/-- The call `.sort()`: a stable sort by `sortLe`. -/
def sort (l : List JSVal) : List JSVal :=
  l.insertionSort (fun a b => sortLe a b = true)

/-- Lines 93-99: `filterOptions`, one sorted value list per key of `filters`. -/
def filterOptions (filters : Filters) (data : List Record) : Obj (List JSVal) :=
  (ownEntries filters).foldl
    (fun opts p => assign opts p.1 (sort (newSet (data.map fun d => optionValue d p.1))))
    []

/-! ## Debounced recompute controller -/

/-- A live timer of the host: its handle, the time it is due, and the `filters` and `data`
captured by the callback closure. -/
structure Timer where
  id : Nat
  due : Nat
  filters : Filters
  data : List Record
  deriving DecidableEq

/-- The component state, the host timers, and a log of the runs of the timer callback. -/
structure State where
  now : Nat
  data : List Record
  filters : Filters
  filteredData : List Record
  chartData : List Record
  likelihoodChartData : List Record
  relevanceChartData : List Record
  filtering : Bool
  timers : List Timer
  nextId : Nat
  cleanup : Option Nat
  recomputes : List (Nat × Filters)
  deriving DecidableEq

/-- Lines 15-34: the state of the first render, before any effect has run. -/
def initialState : State :=
  { now := 0, data := [], filters := emptyFilters, filteredData := [], chartData := [],
    likelihoodChartData := [], relevanceChartData := [], filtering := false,
    timers := [], nextId := 0, cleanup := none, recomputes := [] }

/-- Lines 54-85, run after a render in which `filters` or `data` changed: first the cleanup
returned by the previous run (`clearTimeout(handler)`), then the body, which returns at
once when `data` is empty and otherwise starts a timer of 400 units. -/
def runEffect (s : State) : State :=
  let s1 : State :=
    match s.cleanup with
    | some h => { s with timers := s.timers.filter (fun t => t.id != h), cleanup := none }
    | none => s
  if s1.data.length = 0 then s1
  else
    { s1 with
      timers := s1.timers ++ [{ id := s1.nextId, due := s1.now + 400,
                                filters := s1.filters, data := s1.data }]
      nextId := s1.nextId + 1
      cleanup := some s1.nextId }

/-- Lines 57-82: the timer callback, run at the time the timer is due. -/
def fire (s : State) (t : Timer) : State :=
  let filtered := filtered t.data t.filters
  { s with
    now := t.due
    timers := s.timers.filter (fun u => u.id != t.id)
    filteredData := filtered
    chartData := groupBy filtered "region" "intensity"
    likelihoodChartData := groupBy filtered "country" "likelihood"
    relevanceChartData := groupBy filtered "topic" "relevance"
    filtering := false
    recomputes := s.recomputes ++ [(t.due, t.filters)] }

/-- Time passes: the timers due by then fire, oldest first (all delays are equal, so
creation order is due order). -/
def advance (s : State) (dt : Nat) : State :=
  let s1 := (s.timers.filter (fun t => t.due ≤ s.now + dt)).foldl fire s
  { s1 with now := s.now + dt }

/-- What happens to the component. -/
inductive Event where
  | load (jsonData : List Record)
  | change (name value : String)
  | clearAll
  | wait (dt : Nat)
  deriving DecidableEq

/-- One event: a state update followed by the effect, or the passing of time. -/
def step (s : State) : Event → State
  | .load jsonData => runEffect { s with data := jsonData }
  | .change name value =>
    runEffect { s with filters := handleFilterChange s.filters name value }
  | .clearAll => runEffect { s with filters := clearFilters s.filters }
  | .wait dt => advance s dt

/-- A run of events. -/
def run (s : State) (events : List Event) : State := events.foldl step s

/-- The states passed through by a run, the start included. -/
def trace (s : State) : List Event → List State
  | [] => [s]
  | e :: es => s :: trace (step s e) es

/-- A burst: a first constraint change, then further changes each preceded by a gap. -/
def burst (first : Event) (rest : List (Nat × Event)) : List Event :=
  first :: (rest.map fun p => [Event.wait p.1, p.2]).flatten

/-- An event that changes the constraints. -/
def isChange : Event → Bool
  | .change _ _ => true
  | .clearAll => true
  | _ => false

/-! ## Specification-side definitions and scenario data -/

/-- First-seen order, as the specification words it: the distinct keys in the order in
which each is first encountered. -/
def firstSeen : List String → List String
  | [] => []
  | x :: xs => x :: (firstSeen xs).filter (fun y => y != x)

/-- Numeric rank of a key that is an array index. -/
def keyRank (k : String) : Nat := (arrayIndex? k).getD 0

/-- The key order of an ordinary object, on key lists: array-index keys first in ascending
numeric order, then the remaining keys in the order given. -/
def jsKeyOrder (ks : List String) : List String :=
  (ks.filter (fun k => (arrayIndex? k).isSome)).insertionSort (fun a b => keyRank a ≤ keyRank b)
    ++ ks.filter (fun k => (arrayIndex? k).isNone)

/-- A value counted as the specification counts it: a finite number as itself (in units
of `2^(-1074)`), anything else as 0. -/
def numericOrZero : JSVal → Int
  | .num n => n
  | _ => 0

/-- The group keys of a record sequence: the property names under which `groupBy`
accumulates. -/
def groupKeys (arr : List Record) (keyField : String) : List String :=
  arr.map fun r => toStr (groupKey r keyField)

/-- The keys of the entries returned by `groupBy`, read back from the entry objects. -/
def outputKeys (arr : List Record) (keyField valueField : String) : List JSVal :=
  (groupBy arr keyField valueField).map fun e => get e keyField

/-- The values of the entries returned by `groupBy`, read back from the entry objects. -/
def outputValues (arr : List Record) (keyField valueField : String) : List JSVal :=
  (groupBy arr keyField valueField).map fun e => get e valueField

/-- The total of the numeric values held by an object. -/
def valuesSum (o : Record) : Int := (o.map fun p => numericOrZero p.2).sum

/-- The total of the magnitudes of the numeric values held by an object. -/
def magnitudeSum (o : Record) : Int := (o.map fun p => |numericOrZero p.2|).sum

/-- A value that `x || 0` turns into an integer: an integer, or a falsy value. -/
def integerOrFalsy (x : JSVal) : Prop := (∃ n : Int, x = JSVal.ofInt n) ∨ truthy x = false

/-- The magnitudes of the values of a field total less than `2^53`, so that every partial
sum of them is an integer that a double holds exactly. -/
def withinSafeRange (arr : List Record) (valueField : String) : Prop :=
  (arr.map fun r => |numericOrZero (get r valueField)|).sum < 2 ^ 53 * (unit : Int)

/-- An accumulator of integer sums: distinct keys, none of them a member of
`Object.prototype`, every value an integer. -/
def NumericAcc (acc : Record) : Prop :=
  (acc.map Prod.fst).Nodup ∧
    ∀ p ∈ acc, p.1 ∉ objectPrototypeKeys ∧ ∃ n : Int, p.2 = JSVal.ofInt n

/-- The effect of one event on the constraint object. -/
def applyChange (filters : Filters) : Event → Filters
  | .change name value => handleFilterChange filters name value
  | .clearAll => clearFilters filters
  | _ => filters

/-- The constraint object after a burst of changes. -/
def settledFilters (s : State) (first : Event) (rest : List (Nat × Event)) : Filters :=
  (first :: rest.map Prod.snd).foldl applyChange s.filters

/-- The time of the last change of a burst that starts now. -/
def lastChangeTime (s : State) (rest : List (Nat × Event)) : Nat :=
  s.now + (rest.map Prod.fst).sum

/-- States of the controller as the component reaches them: at most one live timer, and
the cleanup function of the last effect run holds its handle. -/
def WellFormed (s : State) : Prop :=
  s.timers.length ≤ 1 ∧ ∀ t ∈ s.timers, s.cleanup = some t.id

/-- The state right after a change with a non-empty record set: exactly one live timer,
due a full window from now, whose callback captured the current constraints and data. -/
def Fresh (s : State) : Prop :=
  ∃ id, s.timers = [{ id := id, due := s.now + 400, filters := s.filters, data := s.data }]
    ∧ s.cleanup = some id

/-- The normaliser as the specification words it: the canonical value is `"Unknown"` when
the raw value is absent, empty or exactly `"N/A"`, and the raw value otherwise. -/
def specNormalize (x : JSVal) : JSVal :=
  if x = .undefined ∨ x = .null ∨ x = .str "" ∨ x = .str "N/A" then .str "Unknown" else x

/-- The normaliser with the truthiness test spelled out: `"Unknown"` for `undefined`,
`null`, `false`, `NaN`, 0, the empty string and `"N/A"`, the value itself otherwise. -/
def truthyNormalize (x : JSVal) : JSVal :=
  if x = .undefined ∨ x = .null ∨ x = .bool false ∨ x = .nan ∨ x = .num 0 ∨ x = .str "" ∨
      x = .str "N/A" then .str "Unknown"
  else x

/-- The predicate filter as the specification words it: a record passes when, for every
constraint with a non-empty value, the normalised field value (`specNormalize`) equals
the constraint. -/
def specFiltered (data : List Record) (filters : Filters) : List Record :=
  data.filter fun r => decide
    (∀ p ∈ filters, p.2 ≠ "" → specNormalize (get r p.1) = JSVal.str p.2)

/-- The rank of a character in the order of UTF-16 code units: the characters below
U+D800 first, then the supplementary characters (whose first code unit is a surrogate),
then the characters from U+E000 to U+FFFF. -/
def charRank (c : Char) : Nat :=
  if c.toNat < 55296 then c.toNat
  else if 65536 ≤ c.toNat then 55296 + (c.toNat - 65536)
  else c.toNat + 1048576

/-- Lexicographic order of character sequences, characters compared by `charRank`: the
order in which JavaScript compares strings. -/
def lexLe : List Char → List Char → Prop
  | [], _ => True
  | _ :: _, [] => False
  | a :: as, b :: bs => charRank a < charRank b ∨ (a = b ∧ lexLe as bs)

/-- Ascending lexicographic order of values, by their string conversion. -/
def Ascending (l : List JSVal) : Prop :=
  l.Sorted fun a b => lexLe (toStr a).data (toStr b).data

/-- Aggregation conservation as the specification words it: the entry values are numbers
whose total is the total of the value field over the records, a value that is not a
number counting as 0. -/
def Conserved (arr : List Record) (keyField valueField : String) : Prop :=
  ∃ ns : List Int, outputValues arr keyField valueField = ns.map JSVal.num ∧
    ns.sum = (arr.map fun r => numericOrZero (get r valueField)).sum

/-- The three records of the scenarios of the specification. -/
def scenarioRecords : List Record :=
  [[("region", .str "Asia"), ("intensity", .ofInt 3)],
   [("region", .str "Asia"), ("intensity", .ofInt 4)],
   [("region", .str "N/A"), ("intensity", .ofInt 5)]]

/-- Two records, the second with a region that reads as an array index. -/
def indexKeyRecords : List Record :=
  [[("region", .str "Asia"), ("intensity", .ofInt 3)],
   [("region", .str "7"), ("intensity", .ofInt 4)]]

/-- Two records of one region, the second with a textual intensity. -/
def textValueRecords : List Record :=
  [[("region", .str "Asia"), ("intensity", .ofInt 5)],
   [("region", .str "Asia"), ("intensity", .str "x")]]

/-- One record whose region is the name `__proto__`. -/
def protoKeyRecords : List Record :=
  [[("region", .str "__proto__"), ("intensity", .ofInt 1)]]

/-- Four records of two regions whose intensities are `2^53`, 1, 1 and 1. -/
def roundingRecords : List Record :=
  [[("region", .str "A"), ("intensity", .ofInt 9007199254740992)],
   [("region", .str "A"), ("intensity", .ofInt 1)],
   [("region", .str "B"), ("intensity", .ofInt 1)],
   [("region", .str "B"), ("intensity", .ofInt 1)]]

/-- The double written `0.1`: 7205759403792794 * 2^(-56). -/
def tenth : JSVal := .num (Int.ofNat (7205759403792794 * 2 ^ 1018))

/-- The double written `0.4`: 7205759403792794 * 2^(-54). -/
def fourTenths : JSVal := .num (Int.ofNat (7205759403792794 * 2 ^ 1020))

/-- Three records of two regions whose intensities are 0.1, 0.1 and 0.4. -/
def fractionRecords : List Record :=
  [[("region", .str "A"), ("intensity", tenth)],
   [("region", .str "B"), ("intensity", tenth)],
   [("region", .str "A"), ("intensity", fourTenths)]]

/-- One record whose region is the number 0. -/
def zeroRegionRecords : List Record :=
  [[("region", .num 0), ("intensity", .ofInt 2)]]

/-- One record whose end year is the number 2027. -/
def numericYearRecords : List Record :=
  [[("end_year", .ofInt 2027), ("region", .str "Asia")]]

/-- Records whose regions mix numbers, the sentinel, plain letters, a supplementary
character (U+1F600) and a character above the surrogates (U+FF5E). -/
def mixedRegionRecords : List Record :=
  [[("region", .str "b")], [("region", .str "～")], [("region", .str "N/A")],
   [("region", .ofInt 9)], [("region", .str "😀")], [("region", .str "a")],
   [("region", .ofInt 10)], [("region", .str "b")], [("region", .ofInt 1000000000000000000000)],
   [("region", .ofInt 11)], [("region", .ofInt 2)]]

/-! ## Lemmas and theorems -/

theorem truthy_bool (b : Bool) : truthy (.bool b) = b := rfl

theorem truthy_str (s : String) : truthy (.str s) = (s != "") := rfl

theorem normalized_eq (x : JSVal) :
    normalized x = if truthy x = true ∧ x ≠ .str "N/A" then x else .str "Unknown" := by
  unfold normalized
  by_cases ht : truthy x = true
  · by_cases hn : x = .str "N/A"
    · subst hn; simp [truthy_bool, truthy_str]
    · have hb : (x != JSVal.str "N/A") = true := bne_iff_ne.mpr hn
      simp [ht, hn, hb, truthy_bool]
  · simp [ht]

theorem mem_ownEntries {α : Type} (o : Obj α) (p : String × α) :
    p ∈ ownEntries o ↔ p ∈ o := by
  unfold ownEntries
  rw [List.mem_append, (List.perm_insertionSort _ _).mem_iff, List.mem_filter, List.mem_filter]
  cases h : arrayIndex? p.1 <;> simp [h]

theorem normalized_idem (x : JSVal) : normalized (normalized x) = normalized x := by
  rw [normalized_eq x]
  split
  · rename_i h; rw [normalized_eq, if_pos h]
  · rw [normalized_eq]; simp [truthy_str]

theorem filtered_eq (data : List Record) (filters : Filters) :
    filtered data filters =
      data.filter (fun r => decide (∀ p ∈ filters, p.2 ≠ "" → normalized (get r p.1) = .str p.2)) := by
  unfold filtered
  apply List.filter_congr
  intro r _
  rw [Bool.eq_iff_iff]
  simp only [List.all_eq_true, decide_eq_true_eq, Bool.or_eq_true, beq_iff_eq]
  constructor
  · intro h p hp hne
    have := h p ((mem_ownEntries _ _).mpr hp)
    rcases this with h1 | h1
    · exact absurd h1 hne
    · exact h1
  · intro h p hp
    by_cases hv : p.2 = ""
    · exact Or.inl hv
    · exact Or.inr (h p ((mem_ownEntries _ _).mp hp) hv)

theorem mem_define {α : Type} (o : Obj α) (k : String) (v : α) (p : String × α) :
    p ∈ define o k v ↔ (p ∈ o ∧ p.1 ≠ k) ∨ p = (k, v) := by
  unfold define
  split
  · rename_i h
    rw [List.any_eq_true] at h
    obtain ⟨q, hq, hqk⟩ := h
    rw [List.mem_map]
    constructor
    · rintro ⟨a, ha, rfl⟩
      by_cases hak : a.1 = k
      · right; simp [hak]
      · left; simp [hak, ha]
    · rintro (⟨hp, hpk⟩ | rfl)
      · exact ⟨p, hp, by simp [hpk]⟩
      · exact ⟨q, hq, by simp [show q.1 = k by simpa using hqk]⟩
  · rename_i h
    rw [List.any_eq_true] at h
    rw [List.mem_append, List.mem_singleton]
    constructor
    · rintro (hp | rfl)
      · left
        refine ⟨hp, fun hpk => h ⟨p, hp, by simpa using hpk⟩⟩
      · right; rfl
    · rintro (⟨hp, _⟩ | rfl)
      · exact Or.inl hp
      · exact Or.inr rfl

theorem keys_define_of_mem {α : Type} (o : Obj α) (k : String) (v : α)
    (hk : k ∈ o.map Prod.fst) : (define o k v).map Prod.fst = o.map Prod.fst := by
  unfold define
  have : o.any (fun p => p.1 == k) = true := by
    rw [List.any_eq_true]
    obtain ⟨p, hp, rfl⟩ := List.mem_map.mp hk
    exact ⟨p, hp, by simp⟩
  rw [if_pos this, List.map_map]
  apply List.map_congr_left
  intro p _
  by_cases h : p.1 = k <;> simp [h]

theorem ownEntries_eq_self {α : Type} (o : Obj α)
    (h : ∀ k ∈ o.map Prod.fst, arrayIndex? k = none) : ownEntries o = o := by
  unfold ownEntries
  have h1 : o.filter (fun p => (arrayIndex? p.1).isSome) = [] := by
    rw [List.filter_eq_nil_iff]
    intro p hp
    simp [h p.1 (List.mem_map_of_mem _ hp)]
  have h2 : o.filter (fun p => (arrayIndex? p.1).isNone) = o := by
    rw [List.filter_eq_self]
    intro p hp
    simp [h p.1 (List.mem_map_of_mem _ hp)]
  rw [h1, h2]; rfl

theorem lookup_cons_self {α : Type} (o : Obj α) (f : String) (b : α) :
    List.lookup f ((f, b) :: o) = some b := by
  simp [List.lookup]

theorem lookup_cons_ne {α : Type} (o : Obj α) (f a : String) (b : α) (h : f ≠ a) :
    List.lookup f ((a, b) :: o) = List.lookup f o := by
  have : (f == a) = false := by simpa using h
  simp [List.lookup, this]

theorem lookup_map_replace {α : Type} (o : Obj α) (k f : String) (v : α) :
    (o.map (fun p => if p.1 == k then (k, v) else p)).lookup f =
      if f = k then (o.lookup k).map (fun _ => v) else o.lookup f := by
  induction o with
  | nil => simp
  | cons q o ih =>
    obtain ⟨a, b⟩ := q
    rw [List.map_cons]
    by_cases hak : a = k
    · subst hak
      have e : (if ((a, b) : String × α).1 == a then (a, v) else (a, b)) = (a, v) := by simp
      rw [e]
      by_cases hf : f = a
      · subst hf
        rw [lookup_cons_self, if_pos rfl, lookup_cons_self]; rfl
      · rw [lookup_cons_ne _ _ _ _ hf, ih, if_neg hf, if_neg hf, lookup_cons_ne _ _ _ _ hf]
    · have e : (if ((a, b) : String × α).1 == k then (k, v) else (a, b)) = (a, b) := by
        simp [hak]
      rw [e]
      by_cases hf : f = a
      · subst hf
        rw [lookup_cons_self, if_neg hak, lookup_cons_self]
      · rw [lookup_cons_ne _ _ _ _ hf, ih, lookup_cons_ne _ _ _ _ hf,
          lookup_cons_ne _ _ _ _ (Ne.symm hak)]

theorem lookup_append_singleton {α : Type} (o : Obj α) (k f : String) (v : α) :
    (o ++ [(k, v)]).lookup f =
      match o.lookup f with
      | some x => some x
      | none => if f = k then some v else none := by
  induction o with
  | nil =>
    by_cases h : f = k
    · subst h; rw [List.nil_append, lookup_cons_self]; simp
    · rw [List.nil_append, lookup_cons_ne _ _ _ _ h]; simp [h]
  | cons q o ih =>
    obtain ⟨a, b⟩ := q
    rw [List.cons_append]
    by_cases hf : f = a
    · subst hf; rw [lookup_cons_self, lookup_cons_self]
    · rw [lookup_cons_ne _ _ _ _ hf, lookup_cons_ne _ _ _ _ hf, ih]

theorem any_key_iff {α : Type} (o : Obj α) (k : String) :
    o.any (fun p => p.1 == k) = (o.lookup k).isSome := by
  induction o with
  | nil => rfl
  | cons q o ih =>
    obtain ⟨a, b⟩ := q
    simp only [List.any_cons, List.lookup_cons]
    by_cases h : k = a
    · subst h; simp
    · have h1 : (k == a) = false := by simpa using h
      have h2 : (a == k) = false := by simpa using (Ne.symm h)
      simp [h1, h2, ih]

theorem lookup_assign {α : Type} (o : Obj α) (k f : String) (v : α)
    (hf : f ≠ "__proto__") :
    (assign o k v).lookup f = if f = k then some v else o.lookup f := by
  unfold assign
  rw [any_key_iff]
  by_cases hfk : f = k
  · subst hfk
    rw [if_pos rfl]
    cases h : o.lookup f with
    | some x =>
      simp only [Option.isSome_some, if_true]
      rw [lookup_map_replace, h]; simp
    | none =>
      simp only [Option.isSome_none, Bool.false_eq_true, if_false, if_neg hf]
      rw [lookup_append_singleton, h]; simp
  · rw [if_neg hfk]
    split
    · rw [lookup_map_replace, if_neg hfk]
    · split
      · rfl
      · rw [lookup_append_singleton]
        cases o.lookup f with
        | some x => rfl
        | none => simp [hfk]

theorem lookup_foldl_assign {β γ : Type} (g : String → β) (ks : List (String × γ))
    (acc : Obj β) (f : String) (hf : f ≠ "__proto__") :
    (ks.foldl (fun o p => assign o p.1 (g p.1)) acc).lookup f =
      if f ∈ ks.map Prod.fst then some (g f) else acc.lookup f := by
  induction ks generalizing acc with
  | nil => simp
  | cons q ks ih =>
    rw [List.foldl_cons, ih, lookup_assign _ _ _ _ hf]
    by_cases h1 : f ∈ ks.map Prod.fst
    · simp [h1]
    · by_cases h2 : f = q.1
      · subst h2; simp
      · simp [h1, h2]

theorem codeUnitsLe_total (a b : List Nat) : codeUnitsLe a b = true ∨ codeUnitsLe b a = true := by
  induction a generalizing b with
  | nil => left; simp [codeUnitsLe]
  | cons x a ih =>
    cases b with
    | nil => right; simp [codeUnitsLe]
    | cons y b =>
      simp only [codeUnitsLe, Bool.or_eq_true, Bool.and_eq_true, decide_eq_true_eq, beq_iff_eq]
      rcases Nat.lt_trichotomy x y with h | h | h
      · exact Or.inl (Or.inl h)
      · subst h
        rcases ih b with h1 | h1
        · exact Or.inl (Or.inr ⟨rfl, h1⟩)
        · exact Or.inr (Or.inr ⟨rfl, h1⟩)
      · exact Or.inr (Or.inl h)

theorem codeUnitsLe_trans (a b c : List Nat) (h1 : codeUnitsLe a b = true)
    (h2 : codeUnitsLe b c = true) : codeUnitsLe a c = true := by
  induction a generalizing b c with
  | nil => simp [codeUnitsLe]
  | cons x a ih =>
    cases b with
    | nil => simp [codeUnitsLe] at h1
    | cons y b =>
      cases c with
      | nil => simp [codeUnitsLe] at h2
      | cons z c =>
        simp only [codeUnitsLe, Bool.or_eq_true, Bool.and_eq_true, decide_eq_true_eq,
          beq_iff_eq] at h1 h2 ⊢
        rcases h1 with h1 | ⟨h1, h1t⟩
        · rcases h2 with h2 | ⟨h2, _⟩
          · exact Or.inl (Nat.lt_trans h1 h2)
          · subst h2; exact Or.inl h1
        · subst h1
          rcases h2 with h2 | ⟨h2, h2t⟩
          · exact Or.inl h2
          · exact Or.inr ⟨h2, ih b c h1t h2t⟩

theorem sortLe_total (a b : JSVal) : sortLe a b = true ∨ sortLe b a = true := by
  by_cases hb : b = .undefined
  · subst hb; left; cases a <;> rfl
  · by_cases ha : a = .undefined
    · subst ha; right; cases b <;> rfl
    · have e1 : sortLe a b = codeUnitsLe (utf16 (toStr a)) (utf16 (toStr b)) := by
        cases a <;> cases b <;> first | rfl | exact absurd rfl ha | exact absurd rfl hb
      have e2 : sortLe b a = codeUnitsLe (utf16 (toStr b)) (utf16 (toStr a)) := by
        cases a <;> cases b <;> first | rfl | exact absurd rfl ha | exact absurd rfl hb
      rw [e1, e2]; exact codeUnitsLe_total _ _

theorem sortLe_trans (a b c : JSVal) (h1 : sortLe a b = true) (h2 : sortLe b c = true) :
    sortLe a c = true := by
  by_cases hc : c = .undefined
  · subst hc; cases a <;> rfl
  · by_cases hb : b = .undefined
    · subst hb; cases c <;> first | exact absurd rfl hc | exact absurd h2 (by simp [sortLe])
    · by_cases ha : a = .undefined
      · subst ha; cases b <;> first | exact absurd rfl hb | exact absurd h1 (by simp [sortLe])
      · have e1 : sortLe a b = codeUnitsLe (utf16 (toStr a)) (utf16 (toStr b)) := by
          cases a <;> cases b <;> first | rfl | exact absurd rfl ha | exact absurd rfl hb
        have e2 : sortLe b c = codeUnitsLe (utf16 (toStr b)) (utf16 (toStr c)) := by
          cases b <;> cases c <;> first | rfl | exact absurd rfl hb | exact absurd rfl hc
        have e3 : sortLe a c = codeUnitsLe (utf16 (toStr a)) (utf16 (toStr c)) := by
          cases a <;> cases c <;> first | rfl | exact absurd rfl ha | exact absurd rfl hc
        rw [e1] at h1; rw [e2] at h2; rw [e3]
        exact codeUnitsLe_trans _ _ _ h1 h2

theorem sorted_sort (l : List JSVal) : (sort l).Sorted (fun a b => sortLe a b = true) :=
  @List.sorted_insertionSort JSVal (fun a b => sortLe a b = true) _ ⟨sortLe_total⟩
    ⟨sortLe_trans⟩ l

theorem perm_sort (l : List JSVal) : (sort l).Perm l := List.perm_insertionSort _ l

theorem newSet_aux (l seen : List JSVal) (hs : seen.Nodup) :
    (l.foldl (fun seen v => if v ∈ seen then seen else seen ++ [v]) seen).Nodup ∧
      ∀ v, v ∈ l.foldl (fun seen v => if v ∈ seen then seen else seen ++ [v]) seen ↔
        v ∈ seen ∨ v ∈ l := by
  induction l generalizing seen with
  | nil => simp [hs]
  | cons x l ih =>
    rw [List.foldl_cons]
    by_cases hx : x ∈ seen
    · rw [if_pos hx]
      refine ⟨(ih seen hs).1, fun v => ?_⟩
      rw [(ih seen hs).2 v, List.mem_cons]
      constructor
      · rintro (h | h)
        · exact Or.inl h
        · exact Or.inr (Or.inr h)
      · rintro (h | h | h)
        · exact Or.inl h
        · subst h; exact Or.inl hx
        · exact Or.inr h
    · rw [if_neg hx]
      have hs' : (seen ++ [x]).Nodup := by
        rw [List.nodup_append]
        refine ⟨hs, List.nodup_singleton x, ?_⟩
        intro a ha hb
        rw [List.mem_singleton] at hb
        subst hb; exact hx ha
      refine ⟨(ih _ hs').1, fun v => ?_⟩
      rw [(ih _ hs').2 v, List.mem_append, List.mem_singleton, List.mem_cons]
      tauto

theorem nodup_newSet (l : List JSVal) : (newSet l).Nodup := (newSet_aux l [] List.nodup_nil).1

theorem mem_newSet (l : List JSVal) (v : JSVal) : v ∈ newSet l ↔ v ∈ l := by
  unfold newSet
  rw [(newSet_aux l [] List.nodup_nil).2 v]; simp

theorem filterFields_no_index : ∀ k ∈ filterFields, arrayIndex? k = none := by decide

theorem filterFields_ne_proto : ∀ k ∈ filterFields, k ≠ "__proto__" := by decide

theorem lookup_filterOptions (filters : Filters) (data : List Record) (field : String)
    (hk : filters.map Prod.fst = filterFields) (hf : field ∈ filterFields) :
    (filterOptions filters data).lookup field =
      some (sort (newSet (data.map fun d => optionValue d field))) := by
  unfold filterOptions
  rw [ownEntries_eq_self filters (by rw [hk]; exact filterFields_no_index)]
  rw [lookup_foldl_assign (fun k => sort (newSet (data.map fun d => optionValue d k)))
    filters [] field (filterFields_ne_proto field hf), hk, if_pos hf]

theorem filterOptions_congr (f1 f2 : Filters) (data : List Record)
    (h : (ownEntries f1).map Prod.fst = (ownEntries f2).map Prod.fst) :
    filterOptions f1 data = filterOptions f2 data := by
  unfold filterOptions
  have key : ∀ (l : Filters) (acc : Obj (List JSVal)),
      l.foldl (fun opts p => assign opts p.1 (sort (newSet (data.map fun d => optionValue d p.1)))) acc
      = (l.map Prod.fst).foldl
          (fun opts k => assign opts k (sort (newSet (data.map fun d => optionValue d k)))) acc := by
    intro l
    induction l with
    | nil => intro acc; rfl
    | cons q l ih => intro acc; rw [List.foldl_cons, List.map_cons, List.foldl_cons, ih]
  rw [key, key, h]

theorem keys_handleFilterChange (filters : Filters) (name value : String)
    (hk : filters.map Prod.fst = filterFields) (hn : name ∈ filterFields) :
    (handleFilterChange filters name value).map Prod.fst = filterFields := by
  unfold handleFilterChange
  rw [ownEntries_eq_self filters (by rw [hk]; exact filterFields_no_index)]
  rw [keys_define_of_mem _ _ _ (by rw [hk]; exact hn), hk]

theorem mem_firstSeen (l : List String) (x : String) : x ∈ firstSeen l ↔ x ∈ l := by
  induction l with
  | nil => simp [firstSeen]
  | cons a l ih =>
    simp only [firstSeen, List.mem_cons, List.mem_filter, ih, bne_iff_ne]
    by_cases h : x = a
    · simp [h]
    · simp [h]

theorem nodup_firstSeen (l : List String) : (firstSeen l).Nodup := by
  induction l with
  | nil => simp [firstSeen]
  | cons a l ih =>
    simp only [firstSeen, List.nodup_cons, List.mem_filter, bne_iff_ne]
    exact ⟨fun h => h.2 rfl, ih.filter _⟩

theorem keys_assign {α : Type} (o : Obj α) (k : String) (v : α) :
    (assign o k v).map Prod.fst =
      if k ∈ o.map Prod.fst ∨ k = "__proto__" then o.map Prod.fst else o.map Prod.fst ++ [k] := by
  unfold assign
  by_cases hk : k ∈ o.map Prod.fst
  · have : o.any (fun p => p.1 == k) = true := by
      rw [List.any_eq_true]
      obtain ⟨p, hp, rfl⟩ := List.mem_map.mp hk
      exact ⟨p, hp, by simp⟩
    rw [if_pos this, if_pos (Or.inl hk), List.map_map]
    apply List.map_congr_left
    intro p _
    by_cases h : p.1 = k <;> simp [h]
  · have : ¬ (o.any (fun p => p.1 == k) = true) := by
      rw [List.any_eq_true]
      rintro ⟨p, hp, hpk⟩
      exact hk (List.mem_map.mpr ⟨p, hp, by simpa using hpk⟩)
    rw [if_neg this]
    by_cases hp : k = "__proto__"
    · rw [if_pos hp, if_pos (Or.inr hp)]
    · rw [if_neg hp, if_neg (by tauto)]; simp

theorem keys_foldl_groupStep (kf vf : String) (arr : List Record) (acc : Record) :
    (arr.foldl (groupStep kf vf) acc).map Prod.fst =
      acc.map Prod.fst ++
        (firstSeen (groupKeys arr kf)).filter
          (fun x => decide (x ∉ acc.map Prod.fst ∧ x ≠ "__proto__")) := by
  induction arr generalizing acc with
  | nil => simp [groupKeys, firstSeen]
  | cons r arr ih =>
    rw [List.foldl_cons, ih]
    have hk : (groupStep kf vf acc r).map Prod.fst =
        if toStr (groupKey r kf) ∈ acc.map Prod.fst ∨ toStr (groupKey r kf) = "__proto__"
        then acc.map Prod.fst else acc.map Prod.fst ++ [toStr (groupKey r kf)] := by
      unfold groupStep; exact keys_assign _ _ _
    rw [hk]
    show _ = acc.map Prod.fst ++
      (toStr (groupKey r kf) :: (firstSeen (groupKeys arr kf)).filter
          (fun y => y != toStr (groupKey r kf))).filter _
    generalize toStr (groupKey r kf) = key
    generalize firstSeen (groupKeys arr kf) = rest
    generalize acc.map Prod.fst = K
    by_cases h : key ∈ K ∨ key = "__proto__"
    · rw [if_pos h]
      congr 1
      have hn : ¬ (decide (key ∉ K ∧ key ≠ "__proto__") = true) := by
        rw [decide_eq_true_eq]; tauto
      rw [List.filter_cons, if_neg hn, List.filter_filter]
      apply List.filter_congr
      intro x _
      rw [Bool.eq_iff_iff]
      simp only [Bool.and_eq_true, decide_eq_true_eq, bne_iff_ne]
      constructor
      · intro hx
        refine ⟨hx, fun hxk => ?_⟩
        subst hxk; tauto
      · intro hx; exact hx.1
    · rw [if_neg h, List.append_assoc]
      congr 1
      have hp : decide (key ∉ K ∧ key ≠ "__proto__") = true := by
        rw [decide_eq_true_eq]; tauto
      rw [List.filter_cons, if_pos hp, List.singleton_append, List.filter_filter]
      congr 1
      apply List.filter_congr
      intro x _
      rw [Bool.eq_iff_iff]
      simp only [Bool.and_eq_true, decide_eq_true_eq, bne_iff_ne, List.mem_append,
        List.mem_singleton]
      tauto

theorem keys_ownEntries {α : Type} (o : Obj α) :
    (ownEntries o).map Prod.fst = jsKeyOrder (o.map Prod.fst) := by
  unfold ownEntries jsKeyOrder
  rw [List.map_append, List.filter_map, List.filter_map]
  congr 1
  exact List.map_insertionSort (fun p q : String × α => indexRank p ≤ indexRank q)
    (fun a b : String => keyRank a ≤ keyRank b) Prod.fst _ (fun a _ b _ => Iff.rfl)

theorem perm_ownEntries {α : Type} (o : Obj α) : (ownEntries o).Perm o := by
  unfold ownEntries
  have e : (fun p : String × α => (arrayIndex? p.1).isNone) =
      (fun p => !(arrayIndex? p.1).isSome) := by
    funext p; cases arrayIndex? p.1 <;> rfl
  rw [e]
  exact ((List.perm_insertionSort _ _).append_right _).trans (List.filter_append_perm _ o)

theorem get_entryObject_value (kf vf : String) (p : String × JSVal) :
    get (entryObject kf vf p) vf = p.2 := by
  unfold entryObject define get
  by_cases h : kf = vf
  · subst h; simp [List.lookup]
  · have h1 : (kf == vf) = false := by simpa using h
    have h2 : (vf == kf) = false := by simpa using (Ne.symm h)
    simp [List.lookup, h1, h2]

theorem get_entryObject_key (kf vf : String) (p : String × JSVal) (h : kf ≠ vf) :
    get (entryObject kf vf p) kf = .str p.1 := by
  unfold entryObject define get
  have h1 : (kf == vf) = false := by simpa using h
  simp [List.lookup, h1]

theorem outputKeys_eq (arr : List Record) (kf vf : String) (h : kf ≠ vf) :
    outputKeys arr kf vf =
      (jsKeyOrder ((firstSeen (groupKeys arr kf)).filter (fun x => x != "__proto__"))).map
        JSVal.str := by
  unfold outputKeys groupBy
  rw [List.map_map]
  have : ((fun e => get e kf) ∘ entryObject kf vf) = (JSVal.str ∘ Prod.fst) := by
    funext p; exact get_entryObject_key kf vf p h
  rw [this, ← List.map_map, keys_ownEntries, keys_foldl_groupStep]
  simp only [List.map_nil, List.nil_append, List.not_mem_nil, not_false_eq_true, true_and]
  congr 2
  apply List.filter_congr
  intro x _
  rw [Bool.eq_iff_iff]
  simp

theorem mem_of_lookup {α : Type} (o : Obj α) (k : String) (x : α)
    (h : o.lookup k = some x) : (k, x) ∈ o := by
  induction o with
  | nil => simp at h
  | cons q o ih =>
    obtain ⟨a, b⟩ := q
    by_cases hk : k = a
    · subst hk
      rw [lookup_cons_self] at h
      cases h; exact List.mem_cons_self _ _
    · rw [lookup_cons_ne _ _ _ _ hk] at h
      exact List.mem_cons_of_mem _ (ih h)

theorem lookup_eq_none_iff {α : Type} (o : Obj α) (k : String) :
    o.lookup k = none ↔ k ∉ o.map Prod.fst := by
  induction o with
  | nil => simp
  | cons q o ih =>
    obtain ⟨a, b⟩ := q
    by_cases hk : k = a
    · subst hk
      rw [lookup_cons_self]; simp
    · rw [lookup_cons_ne _ _ _ _ hk, ih]; simp [hk]

theorem map_replace_of_not_mem {α : Type} (o : Obj α) (k : String) (v : α)
    (h : k ∉ o.map Prod.fst) : o.map (fun p => if p.1 == k then (k, v) else p) = o := by
  have : ∀ p ∈ o, (fun p : String × α => if p.1 == k then (k, v) else p) p = id p := by
    intro p hp
    have : p.1 ≠ k := fun e => h (List.mem_map.mpr ⟨p, hp, e⟩)
    simp [this]
  rw [List.map_congr_left this, List.map_id]

theorem weightSum_replace (w : JSVal → Int) (o : Record) (k : String) (v x : JSVal)
    (hn : (o.map Prod.fst).Nodup) (hl : o.lookup k = some x) :
    ((o.map (fun p => if p.1 == k then (k, v) else p)).map fun p => w p.2).sum =
      (o.map fun p => w p.2).sum - w x + w v := by
  induction o with
  | nil => simp at hl
  | cons q o ih =>
    obtain ⟨a, b⟩ := q
    rw [List.map_cons, List.nodup_cons] at hn
    by_cases hk : k = a
    · subst hk
      rw [lookup_cons_self] at hl
      cases hl
      have e : (if ((k, x) : String × JSVal).1 == k then (k, v) else (k, x)) = (k, v) := by simp
      rw [List.map_cons, map_replace_of_not_mem o k v hn.1, e]
      simp only [List.map_cons, List.sum_cons]; ring
    · rw [lookup_cons_ne _ _ _ _ hk] at hl
      have e : (if ((a, b) : String × JSVal).1 == k then (k, v) else (a, b)) = (a, b) := by
        simp [Ne.symm hk]
      rw [List.map_cons, e]
      have := ih hn.2 hl
      simp only [List.map_cons, List.sum_cons] at this ⊢
      rw [this]; ring

theorem bitStep_inv (a acc w : Nat) (h : 2 ^ acc ≤ a) : 2 ^ bitStep a acc w ≤ a := by
  unfold bitStep
  split
  · assumption
  · exact h

theorem foldl_bitStep_inv (ws : List Nat) (a acc : Nat) (h : 2 ^ acc ≤ a) :
    2 ^ ws.foldl (bitStep a) acc ≤ a := by
  induction ws generalizing acc with
  | nil => exact h
  | cons w ws ih => exact ih _ (bitStep_inv a acc w h)

theorem leadingBit_le (a : Nat) (h : 0 < a) : 2 ^ leadingBit a ≤ a :=
  foldl_bitStep_inv _ a 0 h

theorem unit_pos : 0 < unit := Nat.pos_pow_of_pos 1074 (by decide)

theorem halfEven_of_dvd (a d : Nat) (hd : 0 < d) (h : d ∣ a) : halfEven a d * d = a := by
  unfold halfEven
  have hm : a % d = 0 := Nat.mod_eq_zero_of_dvd h
  rw [hm, if_pos (by simpa using hd)]
  exact Nat.div_mul_cancel h

theorem roundScaled_exact (k : Nat) (hk : k < 2 ^ 53) : roundScaled (k * unit) 1 = k * unit := by
  unfold roundScaled
  rw [Nat.div_one, Nat.one_mul]
  have hsh : leadingBit (k * unit) - 52 ≤ 1074 := by
    by_cases h0 : k = 0
    · subst h0
      rw [Nat.zero_mul]
      have : leadingBit 0 = 0 := by decide
      rw [this]; decide
    · have hpos : 0 < k * unit := Nat.mul_pos (Nat.pos_of_ne_zero h0) unit_pos
      have h1 := leadingBit_le _ hpos
      have h2 : k * unit < 2 ^ 1127 := by
        have : (2 : Nat) ^ 1127 = 2 ^ 53 * unit := by
          unfold unit; rw [← Nat.pow_add]
        rw [this]
        exact Nat.mul_lt_mul_of_pos_right hk unit_pos
      have h3 : leadingBit (k * unit) < 1127 := by
        by_contra hc
        have hge : 1127 ≤ leadingBit (k * unit) := Nat.le_of_not_lt hc
        have := Nat.pow_le_pow_right (by decide : 0 < 2) hge
        exact absurd (Nat.lt_of_le_of_lt (Nat.le_trans this h1) h2) (Nat.lt_irrefl _)
      omega
  have hdvd : 2 ^ (leadingBit (k * unit) - 52) ∣ k * unit := by
    have : 2 ^ (leadingBit (k * unit) - 52) ∣ unit := by
      unfold unit; exact Nat.pow_dvd_pow 2 hsh
    exact Dvd.dvd.mul_left this k
  exact halfEven_of_dvd _ _ (Nat.pos_pow_of_pos _ (by decide)) hdvd

theorem addNum_exact (a b : Int) (h : (a + b).natAbs < 2 ^ 53) :
    addNum (a * unit) (b * unit) = JSVal.ofInt (a + b) := by
  have hu : (0 : Int) < (unit : Int) := by exact_mod_cast unit_pos
  have hsum : a * (unit : Int) + b * unit = (a + b) * unit := by ring
  have habs : ((a + b) * (unit : Int)).natAbs = (a + b).natAbs * unit := by
    rw [Int.natAbs_mul, Int.natAbs_ofNat]
  unfold addNum numberOf JSVal.ofInt
  rw [hsum, habs, roundScaled_exact _ h]
  have hlt : (a + b).natAbs * unit < 2 ^ 2098 := by
    have h1 : (a + b).natAbs * unit < 2 ^ 53 * unit := Nat.mul_lt_mul_of_pos_right h unit_pos
    have h2 : (2 : Nat) ^ 53 * unit = 2 ^ 1127 := by unfold unit; rw [← Nat.pow_add]
    have h3 : (2 : Nat) ^ 1127 ≤ 2 ^ 2098 := Nat.pow_le_pow_right (by decide) (by decide)
    omega
  rw [if_pos hlt]
  congr 1
  by_cases hneg : a + b < 0
  · have h1 : (a + b) * (unit : Int) < 0 := Int.mul_neg_of_neg_of_pos hneg hu
    have h2 : ((a + b).natAbs : Int) = -(a + b) := Int.ofNat_natAbs_of_nonpos (le_of_lt hneg)
    simp only [h1, decide_True, if_true]
    rw [Nat.cast_mul, h2]; ring
  · have hge : 0 ≤ a + b := not_lt.mp hneg
    have h1 : ¬ (a + b) * (unit : Int) < 0 := not_lt.mpr (Int.mul_nonneg hge (le_of_lt hu))
    have h2 : ((a + b).natAbs : Int) = a + b := Int.natAbs_of_nonneg hge
    simp only [h1, decide_False, Bool.false_eq_true, if_false]
    rw [Nat.cast_mul, h2]

theorem orZero_num (n : Int) : orZero (.num n) = .num n := by
  unfold orZero
  by_cases h : n = 0
  · subst h; rfl
  · simp [truthy, h]

theorem orZero_integerOrFalsy (x : JSVal) (h : integerOrFalsy x) :
    ∃ m : Int, orZero x = JSVal.ofInt m ∧ numericOrZero x = m * unit := by
  rcases h with ⟨n, rfl⟩ | h
  · exact ⟨n, orZero_num _, rfl⟩
  · refine ⟨0, ?_, ?_⟩
    · unfold orZero JSVal.ofInt; simp [h]
    · cases x with
      | num n =>
        have : n = 0 := by simpa [truthy] using h
        subst this; simp [numericOrZero]
      | _ => simp [numericOrZero]

theorem jsAdd_num (a b : Int) : jsAdd (.num a) (.num b) = addNum a b := rfl

theorem jsAdd_ofInt (a b : Int) (h : (a + b).natAbs < 2 ^ 53) :
    jsAdd (JSVal.ofInt a) (JSVal.ofInt b) = JSVal.ofInt (a + b) :=
  (jsAdd_num _ _).trans (addNum_exact a b h)

theorem abs_le_magnitudeSum (o : Record) (p : String × JSVal) (hp : p ∈ o) :
    |numericOrZero p.2| ≤ magnitudeSum o := by
  unfold magnitudeSum
  apply List.single_le_sum
  · intro x hx
    obtain ⟨q, _, rfl⟩ := List.mem_map.mp hx
    exact abs_nonneg _
  · exact List.mem_map.mpr ⟨p, hp, rfl⟩

theorem magnitudeSum_nonneg (o : Record) : 0 ≤ magnitudeSum o := by
  unfold magnitudeSum
  apply List.sum_nonneg
  intro x hx
  obtain ⟨q, _, rfl⟩ := List.mem_map.mp hx
  exact abs_nonneg _

theorem natAbs_lt_of_scaled (n : Int) (h : |n * (unit : Int)| < 2 ^ 53 * (unit : Int)) :
    n.natAbs < 2 ^ 53 := by
  have hu : (0 : Int) < (unit : Int) := by exact_mod_cast unit_pos
  rw [abs_mul, abs_of_pos hu] at h
  have h1 : |n| < 2 ^ 53 := lt_of_mul_lt_mul_right h (le_of_lt hu)
  have h2 : ((n.natAbs : Nat) : Int) < ((2 ^ 53 : Nat) : Int) := by
    rw [Int.natCast_natAbs]; exact_mod_cast h1
  exact_mod_cast h2

theorem numericAcc_groupStep (kf vf : String) (acc : Record) (r : Record)
    (hacc : NumericAcc acc) (hk : toStr (groupKey r kf) ∉ objectPrototypeKeys)
    (hv : integerOrFalsy (get r vf))
    (hb : magnitudeSum acc + |numericOrZero (get r vf)| < 2 ^ 53 * (unit : Int)) :
    NumericAcc (groupStep kf vf acc r) ∧
      valuesSum (groupStep kf vf acc r) = valuesSum acc + numericOrZero (get r vf) ∧
      magnitudeSum (groupStep kf vf acc r) ≤
        magnitudeSum acc + |numericOrZero (get r vf)| := by
  have hstep : groupStep kf vf acc r = assign acc (toStr (groupKey r kf))
      (jsAdd (orZero (get acc (toStr (groupKey r kf)))) (orZero (get r vf))) := rfl
  rw [hstep]
  generalize toStr (groupKey r kf) = key at hk
  have hproto : key ≠ "__proto__" := by
    intro e; subst e; exact hk (by decide)
  obtain ⟨m, hm1, hm2⟩ := orZero_integerOrFalsy _ hv
  rw [hm2] at hb
  rw [hm1, hm2]
  cases hl : acc.lookup key with
  | some x =>
    have hmem := mem_of_lookup _ _ _ hl
    obtain ⟨n, hx⟩ := (hacc.2 _ hmem).2
    subst hx
    have hg : get acc key = JSVal.ofInt n := by unfold get; rw [hl]
    have hn : |n * (unit : Int)| ≤ magnitudeSum acc := abs_le_magnitudeSum acc _ hmem
    have hsum : (n + m).natAbs < 2 ^ 53 := by
      apply natAbs_lt_of_scaled
      have : |(n + m) * (unit : Int)| ≤ |n * (unit : Int)| + |m * (unit : Int)| := by
        rw [add_mul]; exact abs_add _ _
      omega
    have hadd : jsAdd (orZero (JSVal.ofInt n)) (JSVal.ofInt m) = JSVal.ofInt (n + m) := by
      have : orZero (JSVal.ofInt n) = JSVal.ofInt n := orZero_num _
      rw [this]
      exact jsAdd_ofInt n m hsum
    rw [hg, hadd]
    have ha : assign acc key (JSVal.ofInt (n + m)) =
        acc.map (fun p => if p.1 == key then (key, JSVal.ofInt (n + m)) else p) := by
      unfold assign; rw [any_key_iff, hl]; rfl
    rw [ha]
    refine ⟨⟨?_, ?_⟩, ?_, ?_⟩
    · have := keys_assign acc key (JSVal.ofInt (n + m))
      rw [ha] at this
      rw [this, if_pos (Or.inl (List.mem_map.mpr ⟨_, hmem, rfl⟩))]
      exact hacc.1
    · intro p hp
      obtain ⟨q, hq, rfl⟩ := List.mem_map.mp hp
      by_cases hqk : q.1 = key
      · simp only [hqk, beq_self_eq_true, if_true]
        exact ⟨hk, _, rfl⟩
      · have : (q.1 == key) = false := by simpa using hqk
        simp only [this]
        exact hacc.2 q hq
    · unfold valuesSum
      rw [weightSum_replace numericOrZero acc key _ _ hacc.1 hl]
      simp only [numericOrZero, JSVal.ofInt]; ring
    · unfold magnitudeSum
      rw [weightSum_replace (fun v => |numericOrZero v|) acc key _ _ hacc.1 hl]
      simp only [numericOrZero, JSVal.ofInt]
      have : |(n + m) * (unit : Int)| ≤ |n * (unit : Int)| + |m * (unit : Int)| := by
        rw [add_mul]; exact abs_add _ _
      omega
  | none =>
    have hg : get acc key = .undefined := by unfold get; rw [hl]; simp [hk]
    have hz : orZero .undefined = JSVal.ofInt 0 := by
      unfold orZero JSVal.ofInt; simp [truthy]
    have hsum : (0 + m).natAbs < 2 ^ 53 := by
      apply natAbs_lt_of_scaled
      have := magnitudeSum_nonneg acc
      rw [zero_add]; omega
    rw [hg, hz, jsAdd_ofInt 0 m hsum, zero_add]
    have hnk : key ∉ acc.map Prod.fst := (lookup_eq_none_iff acc key).mp hl
    have ha : assign acc key (JSVal.ofInt m) = acc ++ [(key, JSVal.ofInt m)] := by
      unfold assign; rw [any_key_iff, hl]; simp [hproto]
    rw [ha]
    refine ⟨⟨?_, ?_⟩, ?_, ?_⟩
    · rw [List.map_append, List.nodup_append]
      refine ⟨hacc.1, List.nodup_singleton _, ?_⟩
      intro a h1 h2
      simp only [List.map_cons, List.map_nil, List.mem_singleton] at h2
      subst h2; exact hnk h1
    · intro p hp
      rcases List.mem_append.mp hp with hp | hp
      · exact hacc.2 p hp
      · rw [List.mem_singleton] at hp
        subst hp; exact ⟨hk, _, rfl⟩
    · simp [valuesSum, numericOrZero, JSVal.ofInt]
    · simp [magnitudeSum, numericOrZero, JSVal.ofInt]

theorem numericAcc_foldl (kf vf : String) (arr : List Record) (acc : Record)
    (hacc : NumericAcc acc)
    (hk : ∀ r ∈ arr, toStr (groupKey r kf) ∉ objectPrototypeKeys)
    (hv : ∀ r ∈ arr, integerOrFalsy (get r vf))
    (hb : magnitudeSum acc + (arr.map fun r => |numericOrZero (get r vf)|).sum <
      2 ^ 53 * (unit : Int)) :
    NumericAcc (arr.foldl (groupStep kf vf) acc) ∧
      valuesSum (arr.foldl (groupStep kf vf) acc) =
        valuesSum acc + (arr.map fun r => numericOrZero (get r vf)).sum := by
  induction arr generalizing acc with
  | nil => simp [hacc]
  | cons r arr ih =>
    rw [List.foldl_cons]
    rw [List.map_cons, List.sum_cons] at hb
    have hrest : 0 ≤ (arr.map fun r => |numericOrZero (get r vf)|).sum := by
      apply List.sum_nonneg
      intro x hx
      obtain ⟨q, _, rfl⟩ := List.mem_map.mp hx
      exact abs_nonneg _
    have h1 := numericAcc_groupStep kf vf acc r hacc (hk r (List.mem_cons_self _ _))
      (hv r (List.mem_cons_self _ _)) (by omega)
    have h2 := ih _ h1.1 (fun x hx => hk x (List.mem_cons_of_mem _ hx))
      (fun x hx => hv x (List.mem_cons_of_mem _ hx)) (by omega)
    refine ⟨h2.1, ?_⟩
    rw [h2.2, h1.2.1, List.map_cons, List.sum_cons]; ring

theorem outputValues_eq (arr : List Record) (kf vf : String) :
    outputValues arr kf vf =
      (ownEntries (arr.foldl (groupStep kf vf) [])).map Prod.snd := by
  unfold outputValues groupBy
  rw [List.map_map]
  apply List.map_congr_left
  intro p _
  exact get_entryObject_value kf vf p

theorem wellFormed_initialState : WellFormed initialState := by
  constructor
  · simp [initialState]
  · intro t ht; simp [initialState] at ht

theorem runEffect_spec (s : State) (hwf : WellFormed s) (hd : s.data ≠ []) :
    Fresh (runEffect s) ∧ (runEffect s).now = s.now ∧ (runEffect s).data = s.data ∧
      (runEffect s).filters = s.filters ∧ (runEffect s).recomputes = s.recomputes := by
  have hlen : ¬ (s.data.length = 0) := by
    intro h; exact hd (List.length_eq_zero.mp h)
  cases hc : s.cleanup with
  | none =>
    have ht : s.timers = [] := by
      cases hts : s.timers with
      | nil => rfl
      | cons t ts =>
        have := hwf.2 t (by rw [hts]; exact List.mem_cons_self _ _)
        rw [hc] at this; cases this
    unfold runEffect
    simp only [hc, if_neg hlen, ht, List.nil_append]
    exact ⟨⟨s.nextId, rfl, rfl⟩, trivial, trivial, trivial, trivial⟩
  | some h =>
    have ht : s.timers.filter (fun t => t.id != h) = [] := by
      rw [List.filter_eq_nil_iff]
      intro t htm
      have := hwf.2 t htm
      rw [hc] at this
      cases this; simp
    unfold runEffect
    simp only [hc, if_neg hlen, ht, List.nil_append]
    exact ⟨⟨s.nextId, rfl, rfl⟩, trivial, trivial, trivial, trivial⟩

theorem step_change_spec (s : State) (e : Event) (hwf : WellFormed s) (hd : s.data ≠ [])
    (he : isChange e = true) :
    Fresh (step s e) ∧ (step s e).now = s.now ∧ (step s e).data = s.data ∧
      (step s e).filters = applyChange s.filters e ∧ (step s e).recomputes = s.recomputes := by
  cases e with
  | load d => simp [isChange] at he
  | wait dt => simp [isChange] at he
  | change name value =>
    exact runEffect_spec { s with filters := handleFilterChange s.filters name value } hwf hd
  | clearAll =>
    exact runEffect_spec { s with filters := clearFilters s.filters } hwf hd

theorem advance_lt_spec (s : State) (g : Nat) (hf : Fresh s) (hg : g < 400) :
    advance s g = { s with now := s.now + g } := by
  obtain ⟨id, ht, _⟩ := hf
  unfold advance
  have : s.timers.filter (fun t => decide (t.due ≤ s.now + g)) = [] := by
    rw [ht, List.filter_eq_nil_iff]
    intro t htm
    rw [List.mem_singleton] at htm
    subst htm
    simp only [decide_eq_true_eq]
    omega
  rw [this]; rfl

theorem advance_window_spec (s : State) (hf : Fresh s) :
    (advance s 400).recomputes = s.recomputes ++ [(s.now + 400, s.filters)] ∧
    (advance s 400).timers = [] ∧
    (advance s 400).now = s.now + 400 ∧
    (advance s 400).filteredData = filtered s.data s.filters ∧
    (advance s 400).chartData = groupBy (filtered s.data s.filters) "region" "intensity" ∧
    (advance s 400).likelihoodChartData =
      groupBy (filtered s.data s.filters) "country" "likelihood" ∧
    (advance s 400).relevanceChartData =
      groupBy (filtered s.data s.filters) "topic" "relevance" ∧
    (advance s 400).filtering = false := by
  obtain ⟨id, ht, _⟩ := hf
  unfold advance
  have : s.timers.filter (fun t => decide (t.due ≤ s.now + 400)) =
      [{ id := id, due := s.now + 400, filters := s.filters, data := s.data }] := by
    rw [ht]; simp
  rw [this]
  simp [fire, ht]

theorem fresh_wellFormed (s : State) (hf : Fresh s) : WellFormed s := by
  obtain ⟨id, ht, hc⟩ := hf
  constructor
  · rw [ht]; simp
  · intro t htm
    rw [ht, List.mem_singleton] at htm
    subst htm; exact hc

theorem runEffect_wellFormed (s : State) (hwf : WellFormed s) : WellFormed (runEffect s) := by
  have hclean : ∀ h, s.cleanup = some h → s.timers.filter (fun t => t.id != h) = [] := by
    intro h hc
    rw [List.filter_eq_nil_iff]
    intro t htm
    have := hwf.2 t htm
    rw [hc] at this
    cases this; simp
  have hnone : s.cleanup = none → s.timers = [] := by
    intro hc
    cases hts : s.timers with
    | nil => rfl
    | cons t ts =>
      have := hwf.2 t (by rw [hts]; exact List.mem_cons_self _ _)
      rw [hc] at this; cases this
  unfold runEffect WellFormed
  cases hc : s.cleanup with
  | none =>
    by_cases hd : s.data.length = 0
    · simp only [if_pos hd, hnone hc]; simp
    · simp only [if_neg hd, hnone hc]; simp
  | some h =>
    by_cases hd : s.data.length = 0
    · simp only [if_pos hd, hclean h hc]; simp
    · simp only [if_neg hd, hclean h hc]; simp

theorem foldl_fire_spec (l : List Timer) (s : State) :
    (l.foldl fire s).timers.Sublist s.timers ∧ (l.foldl fire s).cleanup = s.cleanup := by
  induction l generalizing s with
  | nil => exact ⟨List.Sublist.refl _, rfl⟩
  | cons t l ih =>
    rw [List.foldl_cons]
    have h := ih (fire s t)
    refine ⟨h.1.trans ?_, h.2.trans rfl⟩
    exact List.filter_sublist _

theorem advance_wellFormed (s : State) (dt : Nat) (hwf : WellFormed s) :
    WellFormed (advance s dt) := by
  have h := foldl_fire_spec (s.timers.filter (fun t => decide (t.due ≤ s.now + dt))) s
  constructor
  · exact le_trans h.1.length_le hwf.1
  · intro t ht
    have : t ∈ s.timers := h.1.subset ht
    exact (hwf.2 t this) ▸ h.2

theorem step_wellFormed (s : State) (e : Event) (hwf : WellFormed s) :
    WellFormed (step s e) := by
  cases e with
  | load d => exact runEffect_wellFormed { s with data := d } hwf
  | change name value =>
    exact runEffect_wellFormed { s with filters := handleFilterChange s.filters name value } hwf
  | clearAll => exact runEffect_wellFormed { s with filters := clearFilters s.filters } hwf
  | wait dt => exact advance_wellFormed s dt hwf

theorem trace_wellFormed (events : List Event) (s : State) (hwf : WellFormed s) :
    ∀ st ∈ trace s events, WellFormed st := by
  induction events generalizing s with
  | nil =>
    intro st hst
    rw [trace, List.mem_singleton] at hst
    subst hst; exact hwf
  | cons e es ih =>
    intro st hst
    rw [trace, List.mem_cons] at hst
    rcases hst with rfl | hst
    · exact hwf
    · exact ih (step s e) (step_wellFormed s e hwf) st hst

theorem run_wellFormed (events : List Event) (s : State) (hwf : WellFormed s) :
    WellFormed (run s events) := by
  induction events generalizing s with
  | nil => exact hwf
  | cons e es ih => exact ih (step s e) (step_wellFormed s e hwf)

theorem reachable_wellFormed (events : List Event) : WellFormed (run initialState events) :=
  run_wellFormed events initialState wellFormed_initialState

theorem run_append (s : State) (l1 l2 : List Event) : run s (l1 ++ l2) = run (run s l1) l2 := by
  unfold run; rw [List.foldl_append]

theorem burst_rest_spec (rest : List (Nat × Event)) (s : State) (hf : Fresh s)
    (hd : s.data ≠ []) (hrest : ∀ p ∈ rest, p.1 < 400 ∧ isChange p.2 = true) :
    Fresh (run s (rest.map fun p => [Event.wait p.1, p.2]).flatten) ∧
    (run s (rest.map fun p => [Event.wait p.1, p.2]).flatten).now =
      s.now + (rest.map Prod.fst).sum ∧
    (run s (rest.map fun p => [Event.wait p.1, p.2]).flatten).data = s.data ∧
    (run s (rest.map fun p => [Event.wait p.1, p.2]).flatten).filters =
      (rest.map Prod.snd).foldl applyChange s.filters ∧
    (run s (rest.map fun p => [Event.wait p.1, p.2]).flatten).recomputes = s.recomputes := by
  induction rest generalizing s with
  | nil => exact ⟨hf, by simp [run], rfl, rfl, rfl⟩
  | cons p rest ih =>
    have hp := hrest p (List.mem_cons_self _ _)
    have hw : step s (Event.wait p.1) = { s with now := s.now + p.1 } :=
      advance_lt_spec s p.1 hf hp.1
    have hwf1 : WellFormed ({ s with now := s.now + p.1 } : State) := fresh_wellFormed s hf
    have hc := step_change_spec { s with now := s.now + p.1 } p.2 hwf1 hd hp.2
    have hrun : run s ((p :: rest).map fun p => [Event.wait p.1, p.2]).flatten =
        run (step { s with now := s.now + p.1 } p.2)
          (rest.map fun p => [Event.wait p.1, p.2]).flatten := by
      simp only [List.map_cons, List.flatten_cons, List.cons_append, List.nil_append, run,
        List.foldl_cons, hw]
    rw [hrun]
    have hd2 : (step { s with now := s.now + p.1 } p.2).data ≠ [] := by
      rw [hc.2.2.1]; exact hd
    have h := ih (step { s with now := s.now + p.1 } p.2) hc.1 hd2
      (fun q hq => hrest q (List.mem_cons_of_mem _ hq))
    refine ⟨h.1, ?_, ?_, ?_, ?_⟩
    · rw [h.2.1, hc.2.1, List.map_cons, List.sum_cons]; simp only []; omega
    · rw [h.2.2.1, hc.2.2.1]
    · rw [h.2.2.2.1, hc.2.2.2.1, List.map_cons, List.foldl_cons]
    · rw [h.2.2.2.2, hc.2.2.2.2]

theorem burst_spec (s : State) (first : Event) (rest : List (Nat × Event))
    (hwf : WellFormed s) (hd : s.data ≠ []) (hfirst : isChange first = true)
    (hrest : ∀ p ∈ rest, p.1 < 400 ∧ isChange p.2 = true) :
    Fresh (run s (burst first rest)) ∧
    (run s (burst first rest)).now = lastChangeTime s rest ∧
    (run s (burst first rest)).data = s.data ∧
    (run s (burst first rest)).filters = settledFilters s first rest ∧
    (run s (burst first rest)).recomputes = s.recomputes := by
  have hc := step_change_spec s first hwf hd hfirst
  have hrun : run s (burst first rest) =
      run (step s first) (rest.map fun p => [Event.wait p.1, p.2]).flatten := by
    simp only [burst, run, List.foldl_cons]
  rw [hrun]
  have hd2 : (step s first).data ≠ [] := by rw [hc.2.2.1]; exact hd
  have h := burst_rest_spec rest (step s first) hc.1 hd2 hrest
  refine ⟨h.1, ?_, ?_, ?_, ?_⟩
  · rw [h.2.1, hc.2.1]; rfl
  · rw [h.2.2.1, hc.2.2.1]
  · rw [h.2.2.2.1, hc.2.2.2.1]; rfl
  · rw [h.2.2.2.2, hc.2.2.2.2]

theorem char_range (c : Char) : c.toNat < 55296 ∨ (57343 < c.toNat ∧ c.toNat < 1114112) := by
  have h := c.valid
  simpa [UInt32.isValidChar, Nat.isValidChar, Char.toNat, UInt32.toNat] using h

theorem char_eq_iff (a b : Char) : a = b ↔ a.toNat = b.toNat := by
  constructor
  · intro h; rw [h]
  · intro h
    apply Char.ext
    apply UInt32.ext
    exact h

theorem codeUnitsLe_units (x y : Nat) (r1 r2 : List Nat)
    (hx : x < 55296 ∨ (57343 < x ∧ x < 1114112))
    (hy : y < 55296 ∨ (57343 < y ∧ y < 1114112)) :
    codeUnitsLe
        ((if x < 65536 then [x]
          else [55296 + (x - 65536) / 1024, 56320 + (x - 65536) % 1024]) ++ r1)
        ((if y < 65536 then [y]
          else [55296 + (y - 65536) / 1024, 56320 + (y - 65536) % 1024]) ++ r2) = true ↔
      ((if x < 55296 then x else if 65536 ≤ x then 55296 + (x - 65536) else x + 1048576) <
        (if y < 55296 then y else if 65536 ≤ y then 55296 + (y - 65536) else y + 1048576) ∨
        (x = y ∧ codeUnitsLe r1 r2 = true)) := by
  by_cases hx1 : x < 65536 <;> by_cases hy1 : y < 65536
  · simp only [hx1, hy1, if_true, List.cons_append, List.nil_append, codeUnitsLe,
      Bool.or_eq_true, Bool.and_eq_true, decide_eq_true_eq, beq_iff_eq]
    constructor
    · rintro (h | ⟨h, hp⟩)
      · left; split_ifs <;> omega
      · exact Or.inr ⟨h, hp⟩
    · rintro (h | ⟨h, hp⟩)
      · left; split_ifs at h <;> omega
      · exact Or.inr ⟨h, hp⟩
  · simp only [hx1, hy1, if_true, if_false, List.cons_append, List.nil_append, codeUnitsLe,
      Bool.or_eq_true, Bool.and_eq_true, decide_eq_true_eq, beq_iff_eq]
    constructor
    · rintro (h | ⟨h, _⟩)
      · left; split_ifs <;> omega
      · exfalso; omega
    · rintro (h | ⟨h, _⟩)
      · left; split_ifs at h <;> omega
      · exfalso; omega
  · simp only [hx1, hy1, if_true, if_false, List.cons_append, List.nil_append, codeUnitsLe,
      Bool.or_eq_true, Bool.and_eq_true, decide_eq_true_eq, beq_iff_eq]
    constructor
    · rintro (h | ⟨h, _⟩)
      · left; split_ifs <;> omega
      · exfalso; omega
    · rintro (h | ⟨h, _⟩)
      · left; split_ifs at h <;> omega
      · exfalso; omega
  · simp only [hx1, hy1, if_false, List.cons_append, List.nil_append, codeUnitsLe,
      Bool.or_eq_true, Bool.and_eq_true, decide_eq_true_eq, beq_iff_eq]
    constructor
    · rintro (h | ⟨h, h2 | ⟨h2, hp⟩⟩)
      · left; split_ifs <;> omega
      · left; split_ifs <;> omega
      · right; exact ⟨by omega, hp⟩
    · rintro (h | ⟨h, hp⟩)
      · have h' : x - 65536 < y - 65536 := by split_ifs at h <;> omega
        by_cases hq : (x - 65536) / 1024 = (y - 65536) / 1024
        · right; exact ⟨by omega, Or.inl (by omega)⟩
        · left; omega
      · subst h; right; exact ⟨rfl, Or.inr ⟨rfl, hp⟩⟩

theorem codeUnitsLe_iff_lexLe (l1 l2 : List Char) :
    codeUnitsLe
        (l1.map fun c => if c.toNat < 65536 then [c.toNat]
          else [55296 + (c.toNat - 65536) / 1024, 56320 + (c.toNat - 65536) % 1024]).flatten
        (l2.map fun c => if c.toNat < 65536 then [c.toNat]
          else [55296 + (c.toNat - 65536) / 1024, 56320 + (c.toNat - 65536) % 1024]).flatten
      = true ↔ lexLe l1 l2 := by
  induction l1 generalizing l2 with
  | nil => simp [codeUnitsLe, lexLe]
  | cons a as ih =>
    cases l2 with
    | nil =>
      simp only [List.map_cons, List.flatten_cons, List.map_nil, List.flatten_nil, lexLe,
        iff_false]
      by_cases h : a.toNat < 65536 <;> simp [h, codeUnitsLe]
    | cons b bs =>
      simp only [List.map_cons, List.flatten_cons, lexLe]
      rw [codeUnitsLe_units _ _ _ _ (char_range a) (char_range b), ih bs, char_eq_iff a b]
      rfl

theorem utf16_le_iff_lexLe (s t : String) :
    codeUnitsLe (utf16 s) (utf16 t) = true ↔ lexLe s.data t.data :=
  codeUnitsLe_iff_lexLe s.data t.data

theorem normalized_eq_truthyNormalize (x : JSVal) : normalized x = truthyNormalize x := by
  rw [normalized_eq]
  unfold truthyNormalize
  cases x with
  | undefined => simp [truthy]
  | null => simp [truthy]
  | bool b => cases b <;> simp [truthy]
  | nan => simp [truthy]
  | inf negative => simp [truthy]
  | num n =>
    by_cases h : n = 0
    · subst h; simp [truthy]
    · simp [truthy, h]
  | str s =>
    by_cases h1 : s = ""
    · subst h1; simp [truthy]
    · by_cases h2 : s = "N/A"
      · subst h2; simp [truthy]
      · simp [truthy, h1, h2]
  | inherited name => simp [truthy]

theorem filtered_eq_truthy (data : List Record) (filters : Filters) :
    filtered data filters =
      data.filter (fun r => decide
        (∀ p ∈ filters, p.2 ≠ "" → truthyNormalize (get r p.1) = JSVal.str p.2)) := by
  rw [filtered_eq]
  apply List.filter_congr
  intro r _
  simp only [normalized_eq_truthyNormalize]

theorem conserved_iff_of_values (arr : List Record) (kf vf : String) (ns : List Int)
    (h : outputValues arr kf vf = ns.map JSVal.num) :
    Conserved arr kf vf ↔ ns.sum = (arr.map fun r => numericOrZero (get r vf)).sum := by
  have hinj : Function.Injective JSVal.num := fun a b e => by cases e; rfl
  constructor
  · rintro ⟨ms, h1, h2⟩
    rw [h] at h1
    rw [List.map_injective_iff.mpr hinj h1]; exact h2
  · intro h2; exact ⟨ns, h, h2⟩

theorem normalized_ne_undefined (x : JSVal) : normalized x ≠ .undefined := by
  rw [normalized_eq]
  split
  · rename_i h
    intro e
    rw [e] at h
    exact absurd h.1 (by decide)
  · intro e; cases e

theorem sortLe_eq_codeUnitsLe (a b : JSVal) (ha : a ≠ .undefined) (hb : b ≠ .undefined) :
    sortLe a b = codeUnitsLe (utf16 (toStr a)) (utf16 (toStr b)) := by
  cases a <;> cases b <;> first | rfl | exact absurd rfl ha | exact absurd rfl hb

theorem single_constraint_pred (f v : String) (hv : v ≠ "") (r : Record) :
    (∀ p ∈ handleFilterChange emptyFilters f v, p.2 ≠ "" →
        normalized (get r p.1) = JSVal.str p.2) ↔ normalized (get r f) = JSVal.str v := by
  unfold handleFilterChange
  constructor
  · intro h
    exact h (f, v) ((mem_define _ _ _ _).mpr (Or.inr rfl)) hv
  · intro h p hp hne
    rcases (mem_define _ _ _ _).mp hp with ⟨hp1, _⟩ | rfl
    · have : p.2 = "" := by
        have hall : ∀ q ∈ emptyFilters, q.2 = "" := by decide
        exact hall p ((mem_ownEntries _ _).mp hp1)
      exact absurd this hne
    · exact h

theorem unique_of_lookup {α : Type} (o : Obj α) (k : String) (x y : α)
    (hn : (o.map Prod.fst).Nodup) (hl : o.lookup k = some x) (hy : (k, y) ∈ o) : y = x := by
  induction o with
  | nil => simp at hy
  | cons q o ih =>
    obtain ⟨a, b⟩ := q
    rw [List.map_cons, List.nodup_cons] at hn
    by_cases hk : k = a
    · subst hk
      rw [lookup_cons_self] at hl
      cases hl
      rcases List.mem_cons.mp hy with h | h
      · cases h; rfl
      · exact absurd (List.mem_map.mpr ⟨(k, y), h, rfl⟩) hn.1
    · rw [lookup_cons_ne _ _ _ _ hk] at hl
      rcases List.mem_cons.mp hy with h | h
      · cases h; exact absurd rfl hk
      · exact ih hn.2 hl h

/-- Claim C1, as stated, fails at a record whose region is the number 0 under the constraint
`region = "Unknown"`: the normaliser of the specification leaves 0 unchanged, so the record
does not satisfy the stated predicate, but the filter returns it. -/
theorem zero_region_passes_unknown :
    specNormalize (JSVal.num 0) = JSVal.num 0 ∧
    specFiltered zeroRegionRecords (handleFilterChange emptyFilters "region" "Unknown") = [] ∧
    filtered zeroRegionRecords (handleFilterChange emptyFilters "region" "Unknown") =
      [[("region", .num 0), ("intensity", .ofInt 2)]] ∧
    filtered zeroRegionRecords (handleFilterChange emptyFilters "region" "Unknown") ≠
      specFiltered zeroRegionRecords (handleFilterChange emptyFilters "region" "Unknown") := by
  decide

/-- Claim C1, amended. The predicate filter returns exactly the records for which every
constraint entry with a non-empty value equals the field value normalised by truthiness
(`"Unknown"` for `undefined`, `null`, `false`, `NaN`, 0, the empty string and `"N/A"`, the
value itself otherwise), in their original relative order (a sublist of the input); on
strings this normaliser is the one of the specification.  With the constraint
`region = "Asia"` the three scenario records yield the first two, and with
`region = "Unknown"` they yield the third, whose raw region is `"N/A"`. -/
theorem filtered_exact (data : List Record) (filters : Filters) (s : String) :
    filtered data filters =
        data.filter (fun r => decide
          (∀ p ∈ filters, p.2 ≠ "" → truthyNormalize (get r p.1) = JSVal.str p.2))
    ∧ (filtered data filters).Sublist data
    ∧ truthyNormalize (JSVal.str s) = specNormalize (JSVal.str s)
    ∧ truthyNormalize JSVal.undefined = specNormalize JSVal.undefined
    ∧ filtered scenarioRecords (handleFilterChange emptyFilters "region" "Asia") =
        [[("region", .str "Asia"), ("intensity", .ofInt 3)],
         [("region", .str "Asia"), ("intensity", .ofInt 4)]]
    ∧ filtered scenarioRecords (handleFilterChange emptyFilters "region" "Unknown") =
        [[("region", .str "N/A"), ("intensity", .ofInt 5)]] := by
  refine ⟨filtered_eq_truthy data filters, ?_, ?_, by decide, by decide, by decide⟩
  · unfold filtered
    exact List.filter_sublist _
  · unfold truthyNormalize specNormalize
    by_cases h1 : s = ""
    · subst h1; simp
    · by_cases h2 : s = "N/A"
      · subst h2; simp
      · simp [h1, h2]

/-- Claim C6. Normalisation is idempotent: normalising a normalised value (the token
`"Unknown"` included) returns it unchanged. -/
theorem normalized_idempotent (x : JSVal) :
    normalized (normalized x) = normalized x ∧
      normalized (JSVal.str "Unknown") = JSVal.str "Unknown" :=
  ⟨normalized_idem x, by decide⟩

/-- Claim C5, as stated, fails at the number 0: it is present, not empty and not `"N/A"`,
so the stated rule returns it unchanged, but the expression returns `"Unknown"`. -/
theorem normalized_zero_is_unknown :
    specNormalize (JSVal.num 0) = JSVal.num 0 ∧
      normalized (JSVal.num 0) = JSVal.str "Unknown" ∧
      normalized (JSVal.num 0) ≠ specNormalize (JSVal.num 0) := by
  decide

/-- Claim C5, amended. The normalisation expression returns its argument unchanged when
the argument is truthy and not `"N/A"`, and `"Unknown"` otherwise; on strings and on
absent values this is the stated rule; the copies inlined in `groupBy` and in
`filterOptions` compute the same function of the field value. -/
theorem normalizer_contract (x : JSVal) (s : String) (r : Record) (f : String) :
    normalized x = (if truthy x = true ∧ x ≠ JSVal.str "N/A" then x else JSVal.str "Unknown")
    ∧ normalized (JSVal.str s) = specNormalize (JSVal.str s)
    ∧ normalized JSVal.undefined = specNormalize JSVal.undefined
    ∧ normalized JSVal.null = specNormalize JSVal.null
    ∧ groupKey r f = normalized (get r f)
    ∧ optionValue r f = normalized (get r f) := by
  refine ⟨normalized_eq x, ?_, by decide, by decide, rfl, rfl⟩
  rw [normalized_eq]
  unfold specNormalize
  by_cases h1 : s = ""
  · subst h1; simp [truthy_str]
  · by_cases h2 : s = "N/A"
    · subst h2; simp
    · simp [truthy_str, h1, h2]

/-- Claim C7. Filter monotonicity: when the constraint object has distinct keys and holds
the empty string under `f`, setting `f` to any value yields a sublist of the previous
result, hence a result that is no longer. -/
theorem filter_monotone (data : List Record) (c : Filters) (f v : String)
    (hc : (c.map Prod.fst).Nodup) (hf : c.lookup f = some "") :
    (filtered data (handleFilterChange c f v)).Sublist (filtered data c) ∧
      (filtered data (handleFilterChange c f v)).length ≤ (filtered data c).length := by
  have key : (filtered data (handleFilterChange c f v)).Sublist (filtered data c) := by
    have e : filtered data (handleFilterChange c f v) =
        (filtered data c).filter (fun r => decide
          (∀ p ∈ handleFilterChange c f v, p.2 ≠ "" →
            normalized (get r p.1) = JSVal.str p.2)) := by
      rw [filtered_eq, filtered_eq, List.filter_filter]
      apply List.filter_congr
      intro r _
      rw [Bool.eq_iff_iff]
      simp only [Bool.and_eq_true, decide_eq_true_eq]
      constructor
      · intro h
        refine ⟨h, fun p hp hne => ?_⟩
        have hpf : p.1 ≠ f := by
          intro e
          have : p.2 = "" := unique_of_lookup c f "" p.2 hc hf (by rw [← e]; exact hp)
          exact hne this
        apply h p _ hne
        unfold handleFilterChange
        exact (mem_define _ _ _ _).mpr (Or.inl ⟨(mem_ownEntries _ _).mpr hp, hpf⟩)
      · intro h; exact h.1
    rw [e]
    exact List.filter_sublist _
  exact ⟨key, key.length_le⟩

/-- Claim C7, at the scenario records: constraining `region` to `"Asia"` starting from
the all-empty constraints. -/
theorem filter_monotone_witness :
    (emptyFilters.map Prod.fst).Nodup ∧ emptyFilters.lookup "region" = some "" ∧
    (filtered scenarioRecords (handleFilterChange emptyFilters "region" "Asia")).Sublist
      (filtered scenarioRecords emptyFilters) ∧
    (filtered scenarioRecords (handleFilterChange emptyFilters "region" "Asia")).length ≤
      (filtered scenarioRecords emptyFilters).length :=
  ⟨by decide, by decide,
    filter_monotone scenarioRecords emptyFilters "region" "Asia" (by decide) (by decide)⟩

theorem jsKeyOrder_eq_self (ks : List String) (h : ∀ k ∈ ks, arrayIndex? k = none) :
    jsKeyOrder ks = ks := by
  unfold jsKeyOrder
  have h1 : ks.filter (fun k => (arrayIndex? k).isSome) = [] := by
    rw [List.filter_eq_nil_iff]
    intro k hk; simp [h k hk]
  have h2 : ks.filter (fun k => (arrayIndex? k).isNone) = ks := by
    rw [List.filter_eq_self]
    intro k hk; simp [h k hk]
  rw [h1, h2]; rfl

theorem perm_jsKeyOrder (ks : List String) : (jsKeyOrder ks).Perm ks := by
  unfold jsKeyOrder
  have e : (fun k : String => (arrayIndex? k).isNone) =
      (fun k => !(arrayIndex? k).isSome) := by
    funext k; cases arrayIndex? k <;> rfl
  rw [e]
  exact ((List.perm_insertionSort _ _).append_right _).trans (List.filter_append_perm _ ks)

theorem groupBy_nil (kf vf : String) : groupBy [] kf vf = [] := rfl

theorem filtered_eq_nil_iff (data : List Record) (f v : String) (hv : v ≠ "") :
    filtered data (handleFilterChange emptyFilters f v) = [] ↔
      ∀ r ∈ data, normalized (get r f) ≠ JSVal.str v := by
  rw [filtered_eq, List.filter_eq_nil_iff]
  constructor
  · intro h r hr e
    exact h r hr (by rw [decide_eq_true_eq]; exact (single_constraint_pred f v hv r).mpr e)
  · intro h r hr e
    rw [decide_eq_true_eq] at e
    exact h r hr ((single_constraint_pred f v hv r).mp e)

/-- Claim C8, as stated, fails at a record whose region is the number 0: the normaliser of
the specification leaves 0 unchanged, so 0 should be the one option, but the option list
holds `"Unknown"` instead. -/
theorem zero_region_listed_unknown :
    specNormalize (get [("region", JSVal.num 0), ("intensity", JSVal.ofInt 2)] "region") =
      JSVal.num 0 ∧
    (filterOptions emptyFilters zeroRegionRecords).lookup "region" =
      some [JSVal.str "Unknown"] ∧
    JSVal.num 0 ∉ [JSVal.str "Unknown"] := by
  decide

/-- Claim C8, amended. For a constraint object over the nine filterable fields and each of
these fields, `filterOptions` holds under the field a duplicate-free list, ascending in the
lexicographic order in which JavaScript compares the string conversions (characters ranked
by their UTF-16 code units), of exactly the field values normalised by truthiness over the
whole record set; changing a constraint or clearing them all leaves the whole option object
unchanged.  The mixed regions `b`, U+FF5E, `N/A`, 9, U+1F600, `a`, 10, `b`, 1e21, 11, 2
give 10, 11, 1e21, 2, 9, `Unknown`, `a`, `b`, U+1F600, U+FF5E. -/
theorem filterOptions_distinct_sorted (filters : Filters) (data : List Record)
    (field : String) (hk : filters.map Prod.fst = filterFields) (hf : field ∈ filterFields) :
    (∃ opts, (filterOptions filters data).lookup field = some opts
      ∧ opts.Nodup
      ∧ Ascending opts
      ∧ (∀ v, v ∈ opts ↔ ∃ d ∈ data, truthyNormalize (get d field) = v))
    ∧ (∀ name value, name ∈ filterFields →
        filterOptions (handleFilterChange filters name value) data =
          filterOptions filters data)
    ∧ filterOptions (clearFilters filters) data = filterOptions filters data
    ∧ (filterOptions emptyFilters mixedRegionRecords).lookup "region" =
        some [.ofInt 10, .ofInt 11, .ofInt 1000000000000000000000, .ofInt 2, .ofInt 9,
              .str "Unknown", .str "a", .str "b", .str "😀", .str "～"]
    ∧ toStr (JSVal.ofInt 1000000000000000000000) = "1e+21" := by
  have hmem : ∀ v, v ∈ sort (newSet (data.map fun d => optionValue d field)) ↔
      ∃ d ∈ data, truthyNormalize (get d field) = v := by
    intro v
    rw [(perm_sort _).mem_iff, mem_newSet, List.mem_map]
    simp only [← normalized_eq_truthyNormalize]
    exact Iff.rfl
  have hown : ownEntries filters = filters :=
    ownEntries_eq_self filters (by rw [hk]; exact filterFields_no_index)
  refine ⟨⟨_, lookup_filterOptions filters data field hk hf,
    (perm_sort _).nodup_iff.mpr (nodup_newSet _), ?_, hmem⟩, ?_, ?_, by decide, by decide⟩
  · refine (sorted_sort _).imp_of_mem ?_
    intro a b ha hb hab
    obtain ⟨d1, _, rfl⟩ := (hmem a).mp ha
    obtain ⟨d2, _, rfl⟩ := (hmem b).mp hb
    rw [← normalized_eq_truthyNormalize, ← normalized_eq_truthyNormalize] at hab ⊢
    rw [sortLe_eq_codeUnitsLe _ _ (normalized_ne_undefined _) (normalized_ne_undefined _)]
      at hab
    exact (utf16_le_iff_lexLe _ _).mp hab
  · intro name value hn
    apply filterOptions_congr
    have h1 := keys_handleFilterChange filters name value hk hn
    rw [ownEntries_eq_self _ (by rw [h1]; exact filterFields_no_index), h1, hown, hk]
  · apply filterOptions_congr
    have h1 : (clearFilters filters).map Prod.fst = filterFields := rfl
    rw [ownEntries_eq_self _ (by rw [h1]; exact filterFields_no_index), h1, hown, hk]

/-- Claim C8, amended, at the mixed regions and the field `region`, from the all-empty
constraints: the option list is the one displayed, it is duplicate-free and ascending. -/
theorem filterOptions_distinct_sorted_witness :
    emptyFilters.map Prod.fst = filterFields ∧ "region" ∈ filterFields ∧
    (filterOptions emptyFilters mixedRegionRecords).lookup "region" =
      some [.ofInt 10, .ofInt 11, .ofInt 1000000000000000000000, .ofInt 2, .ofInt 9,
            .str "Unknown", .str "a", .str "b", .str "😀", .str "～"] ∧
    List.Nodup [JSVal.ofInt 10, .ofInt 11, .ofInt 1000000000000000000000, .ofInt 2, .ofInt 9,
            .str "Unknown", .str "a", .str "b", .str "😀", .str "～"] ∧
    Ascending [JSVal.ofInt 10, .ofInt 11, .ofInt 1000000000000000000000, .ofInt 2, .ofInt 9,
            .str "Unknown", .str "a", .str "b", .str "😀", .str "～"] := by
  have h := filterOptions_distinct_sorted emptyFilters mixedRegionRecords "region"
    (by decide) (by decide)
  obtain ⟨⟨opts, h1, h2, h3, _⟩, _, _, h4, _⟩ := h
  rw [h4] at h1
  cases h1
  exact ⟨by decide, by decide, h4, h2, h3⟩

/-- Claim C10, as stated, fails at a record whose end year is the number 2027: the option
list offers 2027, picking it sends the string `"2027"`, and the filter, which compares with
`===`, returns no record. -/
theorem numeric_option_selects_nothing :
    (filterOptions emptyFilters numericYearRecords).lookup "end_year" =
      some [JSVal.ofInt 2027] ∧
    selectOption emptyFilters "end_year" (JSVal.ofInt 2027) =
      handleFilterChange emptyFilters "end_year" "2027" ∧
    filtered numericYearRecords (selectOption emptyFilters "end_year" (JSVal.ofInt 2027)) =
      [] := by
  decide

/-- Claim C10, amended. Filtering with a single non-empty constraint on a filterable field is
a total function, and its result is empty exactly when the constraint, a string, is not a
member of the option list of that field; outside the option list the three aggregate series
are empty as well, and a string that the option list offers selects at least one record. -/
theorem single_constraint_empty_iff (data : List Record) (f v : String)
    (hf : f ∈ filterFields) (hv : v ≠ "") :
    ∃ opts, (filterOptions (handleFilterChange emptyFilters f v) data).lookup f = some opts
      ∧ (filtered data (handleFilterChange emptyFilters f v) = [] ↔ JSVal.str v ∉ opts)
      ∧ (JSVal.str v ∉ opts →
          groupBy (filtered data (handleFilterChange emptyFilters f v)) "region" "intensity"
            = [] ∧
          groupBy (filtered data (handleFilterChange emptyFilters f v)) "country" "likelihood"
            = [] ∧
          groupBy (filtered data (handleFilterChange emptyFilters f v)) "topic" "relevance"
            = [])
      ∧ (JSVal.str v ∈ opts →
          ∃ r, r ∈ filtered data (selectOption emptyFilters f (JSVal.str v))) := by
  have hk : (handleFilterChange emptyFilters f v).map Prod.fst = filterFields :=
    keys_handleFilterChange emptyFilters f v rfl hf
  have hiff : filtered data (handleFilterChange emptyFilters f v) = [] ↔
      JSVal.str v ∉ sort (newSet (data.map fun d => optionValue d f)) := by
    rw [filtered_eq_nil_iff data f v hv, (perm_sort _).mem_iff, mem_newSet, List.mem_map]
    constructor
    · rintro h ⟨d, hd, e⟩
      exact h d hd e
    · intro h r hr e
      exact h ⟨r, hr, e⟩
  refine ⟨_, lookup_filterOptions _ data f hk hf, hiff, ?_, ?_⟩
  · intro h
    rw [hiff.mpr h]
    exact ⟨rfl, rfl, rfl⟩
  · intro h
    have : filtered data (handleFilterChange emptyFilters f v) ≠ [] := fun e => hiff.mp e h
    exact List.exists_mem_of_ne_nil _ this

/-- Claim C10, at the scenario records with the constraint `region = "Europe"`, a value
that no record holds. -/
theorem single_constraint_empty_iff_witness :
    "region" ∈ filterFields ∧ "Europe" ≠ "" ∧
    ∃ opts, (filterOptions (handleFilterChange emptyFilters "region" "Europe")
        scenarioRecords).lookup "region" = some opts
      ∧ (filtered scenarioRecords (handleFilterChange emptyFilters "region" "Europe") = [] ↔
          JSVal.str "Europe" ∉ opts)
      ∧ (JSVal.str "Europe" ∉ opts →
          groupBy (filtered scenarioRecords (handleFilterChange emptyFilters "region" "Europe"))
            "region" "intensity" = [] ∧
          groupBy (filtered scenarioRecords (handleFilterChange emptyFilters "region" "Europe"))
            "country" "likelihood" = [] ∧
          groupBy (filtered scenarioRecords (handleFilterChange emptyFilters "region" "Europe"))
            "topic" "relevance" = [])
      ∧ (JSVal.str "Europe" ∈ opts →
          ∃ r, r ∈ filtered scenarioRecords
            (selectOption emptyFilters "region" (JSVal.str "Europe"))) :=
  ⟨by decide, by decide,
    single_constraint_empty_iff scenarioRecords "region" "Europe" (by decide) (by decide)⟩

/-- Claim C2, as stated, fails when a group key reads as an array index: the region
`"7"`, seen second, is emitted first. -/
theorem index_key_emitted_first :
    groupKeys indexKeyRecords "region" = ["Asia", "7"] ∧
    firstSeen (groupKeys indexKeyRecords "region") = ["Asia", "7"] ∧
    outputKeys indexKeyRecords "region" "intensity" = [JSVal.str "7", JSVal.str "Asia"] ∧
    outputKeys indexKeyRecords "region" "intensity" ≠
      (firstSeen (groupKeys indexKeyRecords "region")).map JSVal.str := by
  decide

/-- Claim C2, amended. For distinct field names and record sequences none of whose group
keys is `__proto__`, `groupBy` emits first the entries whose key is an array index, in
ascending numeric order, and then the remaining entries in first-seen order; when no group
key is an array index the order is exactly first-seen order, as in the scenario, which
gives `("Asia", 7)` and then `("Unknown", 5)`. -/
theorem groupBy_key_order (arr : List Record) (keyField valueField : String)
    (hne : keyField ≠ valueField)
    (hp : ∀ r ∈ arr, toStr (groupKey r keyField) ≠ "__proto__") :
    outputKeys arr keyField valueField =
        (jsKeyOrder (firstSeen (groupKeys arr keyField))).map JSVal.str
    ∧ ((∀ k ∈ groupKeys arr keyField, arrayIndex? k = none) →
        outputKeys arr keyField valueField =
          (firstSeen (groupKeys arr keyField)).map JSVal.str)
    ∧ groupBy scenarioRecords "region" "intensity" =
        [[("region", .str "Asia"), ("intensity", .ofInt 7)],
         [("region", .str "Unknown"), ("intensity", .ofInt 5)]] := by
  have hfil : (firstSeen (groupKeys arr keyField)).filter (fun x => x != "__proto__") =
      firstSeen (groupKeys arr keyField) := by
    rw [List.filter_eq_self]
    intro k hk
    rw [mem_firstSeen] at hk
    obtain ⟨r, hr, rfl⟩ := List.mem_map.mp hk
    exact bne_iff_ne.mpr (hp r hr)
  have h1 := outputKeys_eq arr keyField valueField hne
  rw [hfil] at h1
  refine ⟨h1, ?_, by decide⟩
  intro hidx
  rw [h1, jsKeyOrder_eq_self]
  intro k hk
  exact hidx k ((mem_firstSeen _ _).mp hk)

/-- Claim C2, amended, at two records whose second region is the array index `"7"`. -/
theorem groupBy_key_order_witness :
    "region" ≠ "intensity" ∧
    (∀ r ∈ indexKeyRecords, toStr (groupKey r "region") ≠ "__proto__") ∧
    outputKeys indexKeyRecords "region" "intensity" =
      (jsKeyOrder (firstSeen (groupKeys indexKeyRecords "region"))).map JSVal.str :=
  ⟨by decide, by decide,
    (groupBy_key_order indexKeyRecords "region" "intensity" (by decide) (by decide)).1⟩

/-- Claim C3, as stated, fails on a textual value, on large integers and on fractions.
With 5 and `"x"` in one region the stated total is 5 and the single entry is the string
`"5x"`.  With `2^53`, 1 in one region and 1, 1 in another the entries are `2^53` (the sum
`2^53 + 1` rounds) and 2, which total `2^53 + 2`, while the records total `2^53 + 3`.  With
0.1, 0.4 in one region and 0.1 in another the entries are 0.5 and 0.1, which is not the
total of the three doubles. -/
theorem values_not_conserved :
    outputValues textValueRecords "region" "intensity" = [JSVal.str "5x"] ∧
    ¬ Conserved textValueRecords "region" "intensity" ∧
    outputValues roundingRecords "region" "intensity" =
      [JSVal.ofInt 9007199254740992, JSVal.ofInt 2] ∧
    ¬ Conserved roundingRecords "region" "intensity" ∧
    (outputValues fractionRecords "region" "intensity").map toStr = ["0.5", "0.1"] ∧
    (fractionRecords.map fun r => toStr (get r "intensity")) = ["0.1", "0.1", "0.4"] ∧
    ¬ Conserved fractionRecords "region" "intensity" := by
  refine ⟨by decide, ?_, by decide, ?_, by decide, by decide, ?_⟩
  · rintro ⟨ns, h1, _⟩
    have e : outputValues textValueRecords "region" "intensity" = [JSVal.str "5x"] := by
      decide
    rw [e] at h1
    cases ns with
    | nil => cases h1
    | cons n ns => cases h1
  · rw [conserved_iff_of_values roundingRecords "region" "intensity"
      [9007199254740992 * unit, 2 * unit] (by decide)]
    decide
  · rw [conserved_iff_of_values fractionRecords "region" "intensity"
      [Int.ofNat (2 ^ 1073), Int.ofNat (7205759403792794 * 2 ^ 1018)] (by decide)]
    decide

/-- Claim C3, amended. When every record holds an integer or a falsy value (absent, `null`,
`false`, `NaN`, the empty string) under the value field, the magnitudes of these integers
total less than `2^53`, and no group key is the name of a member of `Object.prototype`, the
entry values are numbers whose total is the total of the value field over the records,
the falsy values counting as 0. -/
theorem groupBy_conserves (arr : List Record) (keyField valueField : String)
    (hk : ∀ r ∈ arr, toStr (groupKey r keyField) ∉ objectPrototypeKeys)
    (hv : ∀ r ∈ arr, integerOrFalsy (get r valueField))
    (hb : withinSafeRange arr valueField) :
    Conserved arr keyField valueField := by
  have hacc : NumericAcc ([] : Record) := ⟨List.nodup_nil, fun p hp => by cases hp⟩
  have h := numericAcc_foldl keyField valueField arr [] hacc hk hv
    (by simpa [magnitudeSum] using hb)
  refine ⟨(ownEntries (arr.foldl (groupStep keyField valueField) [])).map
    (fun p => numericOrZero p.2), ?_, ?_⟩
  · rw [outputValues_eq, List.map_map]
    apply List.map_congr_left
    intro p hp
    obtain ⟨n, hn⟩ := (h.1.2 p ((mem_ownEntries _ _).mp hp)).2
    simp only [Function.comp, hn, numericOrZero, JSVal.ofInt]
  · have hperm := (perm_ownEntries (arr.foldl (groupStep keyField valueField) [])).map
      (fun p => numericOrZero p.2)
    rw [hperm.sum_eq]
    have := h.2
    simp only [valuesSum, List.map_nil, List.sum_nil, zero_add] at this
    exact this

/-- Claim C3, amended, at the scenario records: the entry values 7 and 5 total 12, as the
intensities 3, 4 and 5 do. -/
theorem groupBy_conserves_witness :
    (∀ r ∈ scenarioRecords, toStr (groupKey r "region") ∉ objectPrototypeKeys) ∧
    (∀ r ∈ scenarioRecords, integerOrFalsy (get r "intensity")) ∧
    withinSafeRange scenarioRecords "intensity" ∧
    outputValues scenarioRecords "region" "intensity" = [JSVal.ofInt 7, JSVal.ofInt 5] ∧
    Conserved scenarioRecords "region" "intensity" :=
  ⟨by decide, by
      intro r hr
      simp only [scenarioRecords, List.mem_cons, List.mem_singleton, List.not_mem_nil,
        or_false] at hr
      rcases hr with rfl | rfl | rfl
      · exact Or.inl ⟨3, rfl⟩
      · exact Or.inl ⟨4, rfl⟩
      · exact Or.inl ⟨5, rfl⟩,
    by unfold withinSafeRange; decide,
    by decide,
    groupBy_conserves scenarioRecords "region" "intensity" (by decide) (by
      intro r hr
      simp only [scenarioRecords, List.mem_cons, List.mem_singleton, List.not_mem_nil,
        or_false] at hr
      rcases hr with rfl | rfl | rfl
      · exact Or.inl ⟨3, rfl⟩
      · exact Or.inl ⟨4, rfl⟩
      · exact Or.inl ⟨5, rfl⟩) (by unfold withinSafeRange; decide)⟩

/-- Claim C4 at a record whose region is `__proto__`: the input is not empty and its one
normalised group key is `__proto__`, yet `groupBy` returns no entry, while the option
extractor, which collects into a set, lists the value. -/
theorem proto_key_dropped :
    protoKeyRecords ≠ [] ∧
    groupKeys protoKeyRecords "region" = ["__proto__"] ∧
    groupBy protoKeyRecords "region" "intensity" = [] ∧
    (filterOptions emptyFilters protoKeyRecords).lookup "region" =
      some [JSVal.str "__proto__"] := by
  decide

/-- Key completeness away from the dropped name: for distinct field names and record
sequences none of whose group keys is `__proto__`, the output keys are distinct and are
exactly the group keys of the records, and the output is empty only for the empty input. -/
theorem groupBy_keys_complete (arr : List Record) (keyField valueField : String)
    (hne : keyField ≠ valueField)
    (hp : ∀ r ∈ arr, toStr (groupKey r keyField) ≠ "__proto__") :
    (outputKeys arr keyField valueField).Nodup
    ∧ (∀ k, JSVal.str k ∈ outputKeys arr keyField valueField ↔ k ∈ groupKeys arr keyField)
    ∧ (groupBy arr keyField valueField = [] ↔ arr = []) := by
  have hfil : (firstSeen (groupKeys arr keyField)).filter (fun x => x != "__proto__") =
      firstSeen (groupKeys arr keyField) := by
    rw [List.filter_eq_self]
    intro k hk
    rw [mem_firstSeen] at hk
    obtain ⟨r, hr, rfl⟩ := List.mem_map.mp hk
    exact bne_iff_ne.mpr (hp r hr)
  have h1 := outputKeys_eq arr keyField valueField hne
  rw [hfil] at h1
  have hperm : (jsKeyOrder (firstSeen (groupKeys arr keyField))).Perm
      (firstSeen (groupKeys arr keyField)) := perm_jsKeyOrder _
  have hinj : Function.Injective JSVal.str := fun a b e => by cases e; rfl
  refine ⟨?_, ?_, ?_⟩
  · rw [h1]
    exact (hperm.nodup_iff.mpr (nodup_firstSeen _)).map hinj
  · intro k
    rw [h1, List.mem_map_of_injective hinj, hperm.mem_iff, mem_firstSeen]
  · constructor
    · intro h
      have hk : outputKeys arr keyField valueField = [] := by
        unfold outputKeys; rw [h]; rfl
      rw [h1, List.map_eq_nil_iff] at hk
      have hfs : firstSeen (groupKeys arr keyField) = [] := by
        have := hperm.symm.length_eq
        rw [hk] at this
        exact List.length_eq_zero.mp this
      cases arr with
      | nil => rfl
      | cons r arr => simp [groupKeys, firstSeen] at hfs
    · intro h; subst h; rfl

/-- Claim C9, as stated, fails for the empty record set: the effect returns before it
starts a timer, so a burst of one or of two changes is followed by no recompute at all. -/
theorem empty_data_no_recompute :
    initialState.data = [] ∧
    (run initialState
      (burst (Event.change "region" "Asia") [] ++ [Event.wait 400])).recomputes = [] ∧
    (run initialState
      (burst (Event.change "region" "Asia") [(100, Event.clearAll)] ++
        [Event.wait 400])).recomputes = [] ∧
    (run initialState
      (burst (Event.change "region" "Asia") [] ++ [Event.wait 400])).recomputes.length ≠ 1 := by
  decide

/-- Claim C9, amended. From a well-formed state with a non-empty record set, a burst of
constraint changes (single-field changes or clear-all) whose gaps are all below 400 units,
followed by 400 units of quiet, adds exactly one recompute to the log: it happens 400 units
after the last change and uses the constraints left by the last change; nothing is
recomputed during the burst; the published filtered set and the three aggregate series are
those of the final constraints; no timer is left, and no state passed through has more
than one live timer. -/
theorem debounce_collapse (s : State) (first : Event) (rest : List (Nat × Event))
    (hwf : WellFormed s) (hd : s.data ≠ []) (hfirst : isChange first = true)
    (hrest : ∀ p ∈ rest, p.1 < 400 ∧ isChange p.2 = true) :
    (run s (burst first rest ++ [Event.wait 400])).recomputes =
        s.recomputes ++ [(lastChangeTime s rest + 400, settledFilters s first rest)]
    ∧ (run s (burst first rest)).recomputes = s.recomputes
    ∧ (run s (burst first rest ++ [Event.wait 400])).filteredData =
        filtered s.data (settledFilters s first rest)
    ∧ (run s (burst first rest ++ [Event.wait 400])).chartData =
        groupBy (filtered s.data (settledFilters s first rest)) "region" "intensity"
    ∧ (run s (burst first rest ++ [Event.wait 400])).likelihoodChartData =
        groupBy (filtered s.data (settledFilters s first rest)) "country" "likelihood"
    ∧ (run s (burst first rest ++ [Event.wait 400])).relevanceChartData =
        groupBy (filtered s.data (settledFilters s first rest)) "topic" "relevance"
    ∧ (run s (burst first rest ++ [Event.wait 400])).timers = []
    ∧ ∀ st ∈ trace s (burst first rest ++ [Event.wait 400]), st.timers.length ≤ 1 := by
  have hb := burst_spec s first rest hwf hd hfirst hrest
  have hw := advance_window_spec (run s (burst first rest)) hb.1
  have hrun : run s (burst first rest ++ [Event.wait 400]) =
      advance (run s (burst first rest)) 400 := by
    rw [run_append]; rfl
  rw [hrun]
  refine ⟨?_, hb.2.2.2.2, ?_, ?_, ?_, ?_, hw.2.1, ?_⟩
  · rw [hw.1, hb.2.2.2.2, hb.2.1, hb.2.2.2.1]
  · rw [hw.2.2.2.1, hb.2.2.1, hb.2.2.2.1]
  · rw [hw.2.2.2.2.1, hb.2.2.1, hb.2.2.2.1]
  · rw [hw.2.2.2.2.2.1, hb.2.2.1, hb.2.2.2.1]
  · rw [hw.2.2.2.2.2.2.1, hb.2.2.1, hb.2.2.2.1]
  · intro st hst
    exact (trace_wellFormed _ s hwf st hst).1

/-- Claim C9, amended, at the scenario records: loaded at time 0, then `region` set to
`"Asia"` and, 100 units later, all constraints cleared; the one recompute happens at time
500 with the all-empty constraints. -/
theorem debounce_collapse_witness :
    WellFormed (step initialState (Event.load scenarioRecords)) ∧
    (step initialState (Event.load scenarioRecords)).data ≠ [] ∧
    isChange (Event.change "region" "Asia") = true ∧
    (∀ p ∈ [(100, Event.clearAll)], p.1 < 400 ∧ isChange p.2 = true) ∧
    (run (step initialState (Event.load scenarioRecords))
      (burst (Event.change "region" "Asia") [(100, Event.clearAll)] ++
        [Event.wait 400])).recomputes =
      (step initialState (Event.load scenarioRecords)).recomputes ++
        [(lastChangeTime (step initialState (Event.load scenarioRecords))
            [(100, Event.clearAll)] + 400,
          settledFilters (step initialState (Event.load scenarioRecords))
            (Event.change "region" "Asia") [(100, Event.clearAll)])] ∧
    (run (step initialState (Event.load scenarioRecords))
      (burst (Event.change "region" "Asia") [(100, Event.clearAll)] ++
        [Event.wait 400])).recomputes = [(500, emptyFilters)] :=
  ⟨step_wellFormed _ _ wellFormed_initialState, by decide, by decide, by decide,
    (debounce_collapse (step initialState (Event.load scenarioRecords))
      (Event.change "region" "Asia") [(100, Event.clearAll)]
      (step_wellFormed _ _ wellFormed_initialState) (by decide) (by decide) (by decide)).1,
    by decide⟩

end Dashboard
